import Mathlib

/-!
# ztyp: typed views over a binary Merkle tree

A shallow embedding of `view/basic.go`, `view/bitlist.go` and `view/complex.go`
together with the parts of the `tree` package they call, followed by theorems
about scalar packing, the bit-list container and the offset table of the
composite serialization.

Conventions of the embedding:

* Go's `uint8`/`uint64` are natural numbers, with an explicit `% 256` or
  `% 2^64` wherever the Go arithmetic can wrap.
* A Go function returning `(T, error)` returns an `Except Err T`; one that
  can also abort with a panic returns a `Res T`.
* A method that mutates its receiver (`Append`, `Pop`, `Set`) returns the
  receiver after the call together with the error it reported (`none` for
  `nil`); a function writing to an `io.Writer` returns the bytes held by the
  writer after the call together with its outcome.
* The table of zero subtrees of the `tree` package holds one chunk per depth;
  the hash function it is filled with is a parameter, `ZeroHash`.  The
  theorems that depend on the table hold for every hash function; the
  statements at sample inputs are evaluated with the table of `sampleHash`.
-/

namespace Ztyp

/-! ## Outcomes -/

/-- The error sites of the embedded code, one constructor per `fmt.Errorf`
call (or per error kind of the tree package). -/
inductive Err where
  /-- the node is not a chunk (`node.(*Root)` failed) -/
  | notARoot
  /-- `uint%d viewing is not supported` / `subviewing is not supported` -/
  | unsupported
  /-- `cannot get subview %d for uint%d type` -/
  | subviewRange
  /-- `out of range bit lookup in node` -/
  | bitRange
  /-- tree navigation failed (gindex/depth mismatch, chunk reached too early) -/
  | navigation
  /-- `failed to get a setter to append an item` / `to pop a bit` -/
  | noSetter
  /-- `cannot read node %v as list-length` -/
  | lengthNotRoot
  /-- `length appears to be bigger than limit allows` -/
  | corruptLength
  /-- `cannot handle item at element index %d, list only has %d bits` -/
  | index
  /-- `bitlist has a an invalid length ... because of a limit of %d bits` -/
  | indexLimit
  /-- `list length is %d and appending would exceed the list limit %d` -/
  | limitExceeded
  /-- `list length is 0 and no bit can be popped` -/
  | emptyList
  /-- `bitlist bottom node is not a root` -/
  | bottomNotRoot
  /-- `scope %d is too small` -/
  | scopeTooSmall
  /-- `scope %d is too big` -/
  | scopeTooBig
  /-- an error reported by an element of a series -/
  | element
  /-- `io.EOF`, reported by a reader that has nothing left -/
  | eof
  deriving DecidableEq, Repr

/-- The reasons for which the embedded code aborts the process. -/
inductive Abort where
  /-- `panic("cannot write offset with invalid previous offset")` -/
  | invalidPrevOffset
  /-- `panic("cannot write offset with invalid element size")` -/
  | invalidElemSize
  /-- `panic("offset too large, not uint32")` -/
  | offsetTooLarge
  /-- the Go runtime panic `integer divide by zero` -/
  | divideByZero
  deriving DecidableEq, Repr

instance {ε α : Type} [DecidableEq ε] [DecidableEq α] : DecidableEq (Except ε α)
  | .ok a, .ok b =>
    if h : a = b then isTrue (by rw [h]) else isFalse (by intro e; cases e; exact h rfl)
  | .error a, .error b =>
    if h : a = b then isTrue (by rw [h]) else isFalse (by intro e; cases e; exact h rfl)
  | .ok _, .error _ => isFalse (by intro e; cases e)
  | .error _, .ok _ => isFalse (by intro e; cases e)

/-- Outcome of a Go call: a value, a returned `error`, or a panic. -/
inductive Res (α : Type) where
  | ok (a : α)
  | error (e : Err)
  | panic (p : Abort)
  deriving DecidableEq, Repr

/-- A returned value, if the call produced one. -/
def Res.value? {α : Type} : Res α → Option α
  | .ok a => some a
  | _ => none

/-- `true` when the call returned an `error` value to its caller. -/
def Res.isError {α : Type} : Res α → Bool
  | .error _ => true
  | _ => false

/-- `true` when the call aborted with a panic. -/
def Res.isPanic {α : Type} : Res α → Bool
  | .panic _ => true
  | _ => false

/-! ## Chunks (`tree.Root`) -/

/-- Modelled from the spec: the declaration of `tree.Root` is not part of the
sources; the spec's data model has it as "exactly 32 bytes" of content. -/
structure Root where
  bytes : List Nat
  size_eq : bytes.length = 32
  byte_lt : ∀ b ∈ bytes, b < 256
  deriving DecidableEq

/-- Indexing `r[i]`; every use below is guarded so that `i < 32`. -/
def Root.get (r : Root) (i : Nat) : Nat := r.bytes.getD i 0

/-- The copy of `r` with `r[i] = uint8(b)`. -/
def Root.set (r : Root) (i : Nat) (b : Nat) : Root where
  bytes := r.bytes.set i (b % 256)
  size_eq := by simp [r.size_eq]
  byte_lt := by
    intro x hx
    rcases List.mem_or_eq_of_mem_set hx with h | h
    · exact r.byte_lt x h
    · subst h; exact Nat.mod_lt _ (by decide)

/-- The zero value `Root{}`. -/
def Root.zero : Root where
  bytes := List.replicate 32 0
  size_eq := by simp
  byte_lt := by
    intro x hx
    rw [List.eq_of_mem_replicate hx]; decide

/-- Reading of `binary.LittleEndian.UintN(r[off : off+n])` for `n` bytes:
`r[off] | r[off+1]<<8 | ...`. -/
def getLE (r : Root) (off : Nat) : Nat → Nat
  | 0 => 0
  | n + 1 => r.get off + 256 * getLE r (off + 1) n

/-- Writing of `binary.LittleEndian.PutUintN(r[off : off+n], v)` for `n`
bytes: `r[off] = byte(v); r[off+1] = byte(v >> 8); ...`. -/
def putLE (r : Root) (off : Nat) : Nat → Nat → Root
  | 0, _ => r
  | n + 1, v => putLE (r.set off (v % 256)) (off + 1) n (v / 256)

/-! ## Nodes (`tree` package) -/

/-- Modelled from the spec: the node kinds of the `tree` package are not part
of the sources (only the `Node` interface is).  Per the spec's data model a
node is a chunk (32 bytes) or a pair of two child nodes. -/
inductive Node where
  | chunk (r : Root)
  | pair (left right : Node)
  deriving DecidableEq

/-- `Link`, declared in `tree/node.go` as `func(v Node) Node`: the spec's
updater, which takes the replacement node and returns the new node of the
frame the setter was asked from. -/
abbrev Link := Node → Node

/-- Modelled from the spec: the hash function with which the `tree` package
fills its `ZeroHashes` table is not part of the sources.  It is a parameter of
the embedding: every definition and theorem that depends on the table takes
it, and holds for each hash function. -/
class ZeroHash where
  hash : Root → Root → Root

/-- Modelled from the spec: the `ZeroHashes` table is not part of the sources.
The sources take the address of its entries where a `*Root` is expected
(`BackingFromBitfieldBase(&ZeroHashes[0], 0)` in `Append`), so every entry is
one chunk.  Per the spec entry 0 is the all-zero chunk and entry `i` stands
for the pair of two entries `i - 1`, as "a node whose MerkleRoot equals the
recursive all-zero-chunk hash for that depth": the chunk holding the hash of
two entries `i - 1`. -/
def ZeroHashes [ZeroHash] : Nat → Root
  | 0 => Root.zero
  | d + 1 => ZeroHash.hash (ZeroHashes d) (ZeroHashes d)

/-- Modelled from the spec: "the fixed constant for right child of the root
(value 3)". -/
def RightGindex : Nat := 3

/-- The search of `CoverDepth`: the first depth from `d` on, among `fuel`
candidates, whose capacity `2^d` covers `n`. -/
def CoverDepth.search (n : Nat) : Nat → Nat → Nat
  | 0, d => d
  | fuel + 1, d => if n ≤ 2 ^ d then d else CoverDepth.search n fuel (d + 1)

/-- Modelled from the spec: `CoverDepth` is not part of the sources; it is the
"smallest depth whose 2^depth capacity ≥ n" (see `CoverDepth_spec`); a
`uint64` is covered at depth 64 at the latest. -/
def CoverDepth (n : Nat) : Nat := CoverDepth.search n 64 0

/-- The number of binary digits of `g` below its leading 1, looking at no more
than `fuel` digits. -/
def gindexDepth.count : Nat → Nat → Nat
  | 0, _ => 0
  | fuel + 1, g => if g < 2 then 0 else gindexDepth.count fuel (g / 2) + 1

/-- Modelled from the spec: the depth of a generalized index, the "number of
binary digits below the leading 1"; a generalized index is a `uint64`. -/
def gindexDepth (g : Nat) : Nat := gindexDepth.count 64 g

/-- Modelled from the spec: `ToGindex64` is not part of the sources; it is to
"place elementIndex's bits directly below a leading 1 shifted left by depth".
The spec does not say when it fails; the model fails when the index does not
fit in `depth` bits or the result does not fit in 64 bits. -/
def ToGindex64 (index depth : Nat) : Except Err Nat :=
  if depth ≥ 64 then .error .navigation
  else if index ≥ 2 ^ depth then .error .navigation
  else .ok (2 ^ depth + index)

/-- Modelled from the spec: the descent of `Get`, "pair-by-pair following the
binary digits of target below its leading bit, for depth steps"; it fails "if
a chunk is reached before descent completes". -/
def Node.descend : Node → Nat → Nat → Except Err Node
  | n, _, 0 => .ok n
  | .chunk _, _, _ + 1 => .error .navigation
  | .pair l r, target, d + 1 =>
    if target.testBit d then r.descend target d else l.descend target d

/-- Modelled from the spec: `Getter` of a node is not part of the sources.  It
is the spec's `Get`; the call sites pass the generalized index only, so the
number of steps is the number of binary digits below its leading 1.  Zero is
no generalized index. -/
def Node.Getter (n : Node) (target : Nat) : Except Err Node :=
  if target = 0 then .error .navigation else n.descend target (gindexDepth target)

/-- Modelled from the spec: the updater of `Set` ("reconstructs the minimal
path from the current node down to that position and back up, ... reusing
every sibling subtree unchanged") and, with `expand`, of `Expand`
("additionally synthesizes missing pair structure along the path (replacing
zero-subtree placeholders with real pairs as needed)"): a chunk met before the
descent completes is replaced by a pair of two entries of `ZeroHashes`, the
placeholders of the level below. -/
def Node.rebind [ZeroHash] : Node → Nat → Bool → Nat → Except Err Link
  | _, _, _, 0 => .ok (fun v => v)
  | .pair l r, target, expand, d + 1 =>
    if target.testBit d then
      match r.rebind target expand d with
      | .ok f => .ok (fun v => .pair l (f v))
      | .error e => .error e
    else
      match l.rebind target expand d with
      | .ok f => .ok (fun v => .pair (f v) r)
      | .error e => .error e
  | .chunk _, target, expand, d + 1 =>
    if expand then
      if target.testBit d then
        match (Node.chunk (ZeroHashes d)).rebind target expand d with
        | .ok f => .ok (fun v => .pair (.chunk (ZeroHashes d)) (f v))
        | .error e => .error e
      else
        match (Node.chunk (ZeroHashes d)).rebind target expand d with
        | .ok f => .ok (fun v => .pair (f v) (.chunk (ZeroHashes d)))
        | .error e => .error e
    else .error .navigation

/-- Modelled from the spec: `Setter` of a node is not part of the sources.
`Setter(target, false)` is the spec's `Set` and `Setter(target, true)` its
`Expand`; both fail "under the same conditions as Get". -/
def Node.Setter [ZeroHash] (n : Node) (target : Nat) (expand : Bool) :
    Except Err Link :=
  if target = 0 then .error .navigation else n.rebind target expand (gindexDepth target)

/-- Modelled from the spec: `MerkleRoot`, "chunk returns itself; pair returns
hashFn(left.MerkleRoot(hashFn), right.MerkleRoot(hashFn))". -/
def Node.MerkleRoot (h : Root → Root → Root) : Node → Root
  | .chunk r => r
  | .pair l r => h (l.MerkleRoot h) (r.MerkleRoot h)

/-! ## Scalar views (`view/basic.go`) -/

/-- The values behind the `SubView`/`View` interface in `basic.go`. -/
inductive BasicView where
  | uint8 (v : Nat)
  | uint16 (v : Nat)
  | uint32 (v : Nat)
  | uint64 (v : Nat)
  | bool (b : Bool)
  deriving DecidableEq, Repr

def Uint8Type : Nat := 1
def Uint16Type : Nat := 2
def Uint32Type : Nat := 4
def Uint64Type : Nat := 8

/-- `UintMeta.ViewFromBacking`. -/
def UintMeta.ViewFromBacking (td : Nat) : Node → Res BasicView
  | .pair _ _ => .error .notARoot
  | .chunk v =>
    if td = Uint8Type then .ok (.uint8 (v.get 0))
    else if td = Uint16Type then .ok (.uint16 (getLE v 0 2))
    else if td = Uint32Type then .ok (.uint32 (getLE v 0 4))
    else if td = Uint64Type then .ok (.uint64 (getLE v 0 8))
    else .error .unsupported

/-- `UintMeta.SubViewFromBacking`: `td` is the `uint64` width, `i` the `uint8`
slot.  `32 / uint64(td)` panics in Go when `td` is zero; the slice bounds
`2*i`, `4*i`, `8*i` are `uint8` products. -/
def UintMeta.SubViewFromBacking (td : Nat) (v : Root) (i : Nat) : Res BasicView :=
  if td = 0 then .panic .divideByZero
  else if i ≥ 32 / td then .error .subviewRange
  else if td = Uint8Type then .ok (.uint8 (v.get i))
  else if td = Uint16Type then .ok (.uint16 (getLE v ((2 * i) % 256) 2))
  else if td = Uint32Type then .ok (.uint32 (getLE v ((4 * i) % 256) 4))
  else if td = Uint64Type then .ok (.uint64 (getLE v ((8 * i) % 256) 8))
  else .error .unsupported

/-- `Uint8View.BackingFromBase`; `none` is Go's `nil`. -/
def Uint8View.BackingFromBase (v : Nat) (base : Root) (i : Nat) : Option Root :=
  if i ≥ 32 then none else some (base.set i v)

/-- `Uint16View.BackingFromBase`. -/
def Uint16View.BackingFromBase (v : Nat) (base : Root) (i : Nat) : Option Root :=
  if i ≥ 16 then none else some (putLE base ((i * 2) % 256) 2 v)

/-- `Uint32View.BackingFromBase`. -/
def Uint32View.BackingFromBase (v : Nat) (base : Root) (i : Nat) : Option Root :=
  if i ≥ 8 then none else some (putLE base ((i * 4) % 256) 4 v)

/-- `Uint64View.BackingFromBase`. -/
def Uint64View.BackingFromBase (v : Nat) (base : Root) (i : Nat) : Option Root :=
  if i ≥ 4 then none else some (putLE base ((i * 8) % 256) 8 v)

/-- `BoolMeta.SubViewFromBacking`; `none` is Go's `nil`. -/
def BoolMeta.SubViewFromBacking (v : Root) (i : Nat) : Option BasicView :=
  if i ≥ 32 then none
  else if v.get i > 1 then none
  else some (.bool (v.get i == 1))

/-- `BoolMeta.BoolViewFromBitfieldBacking`, `i` a `uint8`. -/
def BoolMeta.BoolViewFromBitfieldBacking (v : Root) (i : Nat) : Except Err Bool :=
  if i > 32 then .error .bitRange
  else .ok (((v.get (i >>> 3) >>> (i &&& 7)) &&& 1) == 1)

/-- `BoolMeta.ViewFromBacking`. -/
def BoolMeta.ViewFromBacking : Node → Except Err BasicView
  | .pair _ _ => .error .notARoot
  | .chunk v => .ok (.bool (v.get 0 != 0))

/-- `BoolView.BackingFromBitfieldBase`, `i` a `uint8`: `|=` sets and `&^=`
clears bit `i & 7` of byte `i >> 3`. -/
def BoolView.BackingFromBitfieldBase (v : Bool) (base : Root) (i : Nat) : Root :=
  if v then base.set (i >>> 3) (base.get (i >>> 3) ||| (1 <<< (i &&& 7)))
  else base.set (i >>> 3) (base.get (i >>> 3) &&& (255 ^^^ (1 <<< (i &&& 7))))

/-- `BoolView.BackingFromBase`. -/
def BoolView.BackingFromBase (v : Bool) (base : Root) (i : Nat) : Option Root :=
  if i ≥ 32 then none
  else if v then some (base.set i 1) else some (base.set i 0)

/-! ## Composite type base (`view/complex.go`) -/

/-- `ComplexTypeBase`. -/
structure ComplexTypeBase where
  MinSize : Nat
  MaxSize : Nat
  Size : Nat
  IsFixedSize : Bool
  deriving DecidableEq, Repr

/-- `ComplexTypeBase.checkScope`; `none` is `nil`. -/
def ComplexTypeBase.checkScope (td : ComplexTypeBase) (scope : Nat) : Option Err :=
  if scope < td.MinSize then some .scopeTooSmall
  else if scope > td.MaxSize then some .scopeTooBig
  else none

/-! ## Bit lists (`view/bitlist.go`) -/

/-- `BitListTypeDef` (the type name, used for printing only, is left out). -/
structure BitListTypeDef where
  BitLimit : Nat
  base : ComplexTypeBase
  deriving DecidableEq, Repr

/-- `BitlistType`; `limit` is a `uint64` and `limit + 7 + 1` a `uint64` sum. -/
def BitlistType (limit : Nat) : BitListTypeDef where
  BitLimit := limit
  base :=
    { MinSize := 1
      MaxSize := ((limit + 7 + 1) % 2 ^ 64) / 8
      Size := 0
      IsFixedSize := false }

/-- `BitListTypeDef.Limit`. -/
def BitListTypeDef.Limit (td : BitListTypeDef) : Nat := td.BitLimit

/-- `BitListTypeDef.BottomNodeLimit`, a `uint64` sum shifted right. -/
def BitListTypeDef.BottomNodeLimit (td : BitListTypeDef) : Nat :=
  ((td.BitLimit + 0xff) % 2 ^ 64) >>> 8

/-- `BitListTypeDef.DefaultNode`: a pair of two entries of `ZeroHashes`, the
placeholder of the content subtree and the zero chunk as the length. -/
def BitListTypeDef.DefaultNode [ZeroHash] (td : BitListTypeDef) : Node :=
  .pair (.chunk (ZeroHashes (CoverDepth td.BottomNodeLimit))) (.chunk (ZeroHashes 0))

/-- `BitListView`, with the fields of the embedded `SubtreeView` and
`BackedView` (whose declarations are not part of the sources) that the methods
below use: the backing node, the commit hook (`none` for a standalone view)
and the traversal depth. -/
structure BitListView where
  td : BitListTypeDef
  Hook : Option (Node → Node)
  BackingNode : Node
  depth : Nat

/-- `BitListTypeDef.ViewFromBacking` (it never fails). -/
def BitListTypeDef.ViewFromBacking (td : BitListTypeDef) (node : Node)
    (hook : Option (Node → Node)) : BitListView where
  td := td
  Hook := hook
  BackingNode := node
  depth := CoverDepth td.BottomNodeLimit + 1

/-- `BitListTypeDef.New`. -/
def BitListTypeDef.New [ZeroHash] (td : BitListTypeDef) (hook : Option (Node → Node)) :
    BitListView :=
  td.ViewFromBacking td.DefaultNode hook

/-- `BitListTypeDef.Default`. -/
def BitListTypeDef.Default [ZeroHash] (td : BitListTypeDef) (hook : Option (Node → Node)) :
    BitListView :=
  td.New hook

/-- Modelled from the spec: `SetBacking` of the embedded `BackedView` is not
part of the sources.  "If a hook is present, calls it with newNode, obtaining
a new node for the enclosing scope, and that becomes this view's new backing
node ... If no hook, the view's backing node is simply replaced."  It reports
no error. -/
def BitListView.SetBacking (tv : BitListView) (b : Node) : BitListView × Option Err :=
  match tv.Hook with
  | some hook => ({ tv with BackingNode := hook b }, none)
  | none => ({ tv with BackingNode := b }, none)

/-- Modelled from the spec: `GetNode` of the embedded `SubtreeView` is not part
of the sources; it is to "convert i to a gindex via §4.3 and delegate to
§4.1". -/
def BitListView.GetNode (tv : BitListView) (i : Nat) : Except Err Node :=
  match ToGindex64 i tv.depth with
  | .error e => .error e
  | .ok g => tv.BackingNode.Getter g

/-- Modelled from the spec: `SetNode` of the embedded `SubtreeView` is not part
of the sources; it converts `i` to a gindex, delegates to the tree's `Set`
and commits the new node with `SetBacking`. -/
def BitListView.SetNode [ZeroHash] (tv : BitListView) (i : Nat) (node : Node) :
    BitListView × Option Err :=
  match ToGindex64 i tv.depth with
  | .error e => (tv, some e)
  | .ok g =>
    match tv.BackingNode.Setter g false with
    | .error e => (tv, some e)
    | .ok link => tv.SetBacking (link node)

/-- `BitListView.Length`. -/
def BitListView.Length (tv : BitListView) : Except Err Nat :=
  match tv.BackingNode.Getter RightGindex with
  | .error e => .error e
  | .ok (.pair _ _) => .error .lengthNotRoot
  | .ok (.chunk llBytes) =>
    let ll := getLE llBytes 0 8
    if ll > tv.td.BitLimit then .error .corruptLength else .ok ll

/-- `BitListView.CheckIndex`; `none` is `nil`. -/
def BitListView.CheckIndex (tv : BitListView) (i : Nat) : Option Err :=
  match tv.Length with
  | .error e => some e
  | .ok ll =>
    if i ≥ ll then some .index
    else if i ≥ tv.td.BitLimit then some .indexLimit
    else none

/-- `BitListView.subviewNode`: the chunk, the bottom index `i >> 8` and the
sub-index `uint8(i)`. -/
def BitListView.subviewNode (tv : BitListView) (i : Nat) : Except Err (Root × Nat × Nat) :=
  match tv.GetNode (i >>> 8) with
  | .error e => .error e
  | .ok (.pair _ _) => .error .bottomNotRoot
  | .ok (.chunk r) => .ok (r, i >>> 8, i % 256)

/-- `BitListView.Get`. -/
def BitListView.Get (tv : BitListView) (i : Nat) : Except Err Bool :=
  match tv.CheckIndex i with
  | some e => .error e
  | none =>
    match tv.subviewNode i with
    | .error e => .error e
    | .ok (r, _, subIndex) => BoolMeta.BoolViewFromBitfieldBacking r subIndex

/-- `BitListView.Set`. -/
def BitListView.Set [ZeroHash] (tv : BitListView) (i : Nat) (v : Bool) :
    BitListView × Option Err :=
  match tv.CheckIndex i with
  | some e => (tv, some e)
  | none =>
    match tv.subviewNode i with
    | .error e => (tv, some e)
    | .ok (r, bottomIndex, subIndex) =>
      tv.SetNode bottomIndex (.chunk (BoolView.BackingFromBitfieldBase v r subIndex))

/-- `BitListView.Append`.  A `Link` returns a node only, so the `err` tested
after applying `setLast` and `setLength` is always `nil`. -/
def BitListView.Append [ZeroHash] (tv : BitListView) (view : Bool) :
    BitListView × Option Err :=
  match tv.Length with
  | .error e => (tv, some e)
  | .ok ll =>
    if ll ≥ tv.td.BitLimit then (tv, some .limitExceeded)
    else
      match ToGindex64 (ll >>> 8) tv.depth with
      | .error e => (tv, some e)
      | .ok lastGindex =>
        match tv.BackingNode.Setter lastGindex true with
        | .error _ => (tv, some .noSetter)
        | .ok setLast =>
          if ll &&& 0xff = 0 then
            let bNode := setLast (.chunk (BoolView.BackingFromBitfieldBase view (ZeroHashes 0) 0))
            match bNode.Setter RightGindex false with
            | .error e => (tv, some e)
            | .ok setLength =>
              tv.SetBacking (setLength (.chunk (putLE Root.zero 0 8 ((ll + 1) % 2 ^ 64))))
          else
            match tv.subviewNode ll with
            | .error e => (tv, some e)
            | .ok (r, _, subIndex) =>
              let bNode := setLast (.chunk (BoolView.BackingFromBitfieldBase view r subIndex))
              match bNode.Setter RightGindex false with
              | .error e => (tv, some e)
              | .ok setLength =>
                tv.SetBacking (setLength (.chunk (putLE Root.zero 0 8 ((ll + 1) % 2 ^ 64))))

/-- `BitListView.Pop`; `ll - 1` is taken after the test `ll == 0`. -/
def BitListView.Pop [ZeroHash] (tv : BitListView) : BitListView × Option Err :=
  match tv.Length with
  | .error e => (tv, some e)
  | .ok ll =>
    if ll = 0 then (tv, some .emptyList)
    else
      match ToGindex64 ((ll - 1) >>> 8) tv.depth with
      | .error e => (tv, some e)
      | .ok lastGindex =>
        match tv.BackingNode.Setter lastGindex true with
        | .error _ => (tv, some .noSetter)
        | .ok setLast =>
          match tv.subviewNode (ll - 1) with
          | .error e => (tv, some e)
          | .ok (r, _, subIndex) =>
            let bNode := setLast (.chunk (BoolView.BackingFromBitfieldBase false r subIndex))
            match bNode.Setter RightGindex false with
            | .error e => (tv, some e)
            | .ok setLength =>
              tv.SetBacking (setLength (.chunk (putLE Root.zero 0 8 (ll - 1))))

/-- `BitListView.ValueByteLength`, a `uint64` sum divided by 8. -/
def BitListView.ValueByteLength (tv : BitListView) : Except Err Nat :=
  match tv.Length with
  | .error e => .error e
  | .ok length => .ok (((length + 7 + 1) % 2 ^ 64) / 8)

/-- The calls that mutate a bit list. -/
inductive Op where
  | append (b : Bool)
  | pop
  | set (i : Nat) (b : Bool)
  deriving DecidableEq, Repr

/-- The view after one call, whether the call succeeded or not. -/
def BitListView.step [ZeroHash] (tv : BitListView) : Op → BitListView
  | .append b => (tv.Append b).1
  | .pop => tv.Pop.1
  | .set i b => (tv.Set i b).1

/-- The view after a sequence of calls. -/
def BitListView.run [ZeroHash] (tv : BitListView) (ops : List Op) : BitListView :=
  ops.foldl BitListView.step tv

/-! ## Offsets of a series of variable-size elements (`view/complex.go`) -/

def OffsetByteLength : Nat := 4

/-- The four bytes `binary.LittleEndian.PutUint32(tmp, v)` stores. -/
def putUint32 (v : Nat) : List Nat :=
  [v % 256, (v / 256) % 256, (v / 65536) % 256, (v / 16777216) % 256]

/-- The value `binary.LittleEndian.Uint32(tmp)` reads from four bytes. -/
def uint32LE (tmp : List Nat) : Nat :=
  tmp.getD 0 0 + 256 * tmp.getD 1 0 + 65536 * tmp.getD 2 0 + 16777216 * tmp.getD 3 0

/-- `WriteOffset`.  The `io.Writer` is an in-memory buffer: `w` is what it
holds, `Write` appends to it and reports no error.  The result is the buffer
after the call and the returned offset, or the panic. -/
def WriteOffset (w : List Nat) (prevOffset elemLen : Nat) : List Nat × Res Nat :=
  if prevOffset ≥ 2 ^ 32 then (w, .panic .invalidPrevOffset)
  else if elemLen ≥ 2 ^ 32 then (w, .panic .invalidElemSize)
  else
    let offset := (prevOffset + elemLen) % 2 ^ 64
    if offset ≥ 2 ^ 32 then (w, .panic .offsetTooLarge)
    else (w ++ putUint32 (offset % 2 ^ 32), .ok offset)

/-- An element of a series, as far as serialization uses it: what
`ValueByteLength()` returns, and the bytes `Serialize(w)` writes together with
the error it returns. -/
structure Elem where
  ValueByteLength : Except Err Nat
  Serialize : List Nat × Option Err

/-- The first loop of `serializeComplexVarElemSeries`.  The iterator is the
list of what its `Next()` calls return before `ok` is false: an element or an
error. -/
def writeOffsets (w : List Nat) (prevOffset prevSize : Nat) :
    List (Except Err Elem) → List Nat × Res Unit
  | [] => (w, .ok ())
  | .error e :: _ => (w, .error e)
  | .ok el :: rest =>
    match el.ValueByteLength with
    | .error e => (w, .error e)
    | .ok elValSize =>
      match WriteOffset w prevOffset prevSize with
      | (w1, .ok offset) => writeOffsets w1 offset elValSize rest
      | (w1, .error e) => (w1, .error e)
      | (w1, .panic p) => (w1, .panic p)

/-- The second loop of `serializeComplexVarElemSeries` (and the loop of
`serializeComplexFixElemSeries`). -/
def writeElems (w : List Nat) : List (Except Err Elem) → List Nat × Res Unit
  | [] => (w, .ok ())
  | .error e :: _ => (w, .error e)
  | .ok el :: rest =>
    match el.Serialize with
    | (bytes, some e) => (w ++ bytes, .error e)
    | (bytes, none) => writeElems (w ++ bytes) rest

/-- `serializeComplexVarElemSeries`; `iterFn` returns the same series at each
call, and `length * OffsetByteLength` is a `uint64` product. -/
def serializeComplexVarElemSeries (length : Nat) (iterFn : List (Except Err Elem))
    (w : List Nat) : List Nat × Res Unit :=
  match writeOffsets w ((length * OffsetByteLength) % 2 ^ 64) 0 iterFn with
  | (w1, .ok ()) => writeElems w1 iterFn
  | (w1, .error e) => (w1, .error e)
  | (w1, .panic p) => (w1, .panic p)

/-- The chunk holding the bytes 0, 1, ..., 31. -/
def Root.sample : Root where
  bytes := List.range 32
  size_eq := by simp
  byte_lt := by
    intro x hx
    have := List.mem_range.1 hx
    omega

/-- The number of bytes `Serialize` writes for an element. -/
def Elem.size (el : Elem) : Nat := el.Serialize.1.length

/-- The `k`-th entry of an offset table: the 4 bytes at position `4 * k` of
the output, read as a little-endian number. -/
def offsetAt (out : List Nat) (k : Nat) : Nat :=
  uint32LE ((out.drop (OffsetByteLength * k)).take OffsetByteLength)

/-- The offsets of a series as the spec describes them: "derive offsets
cumulatively", each one the previous offset plus the previous size. -/
def offsetsFrom (prevOffset prevSize : Nat) : List Nat → List Nat
  | [] => []
  | s :: rest => (prevOffset + prevSize) :: offsetsFrom (prevOffset + prevSize) s rest

/-- What `ValueByteLength()` returns for an item of a series (0 where the
iterator or the element reports an error). -/
def declaredSize : Except Err Elem → Nat
  | .ok el =>
    match el.ValueByteLength with
    | .ok s => s
    | .error _ => 0
  | .error _ => 0

/-- An element of 5 bytes. -/
def Elem.five : Elem := ⟨.ok 5, ([1, 2, 3, 4, 5], none)⟩

/-- An element of 3 bytes. -/
def Elem.three : Elem := ⟨.ok 3, ([6, 7, 8], none)⟩

/-- An element of no bytes. -/
def Elem.empty : Elem := ⟨.ok 0, ([], none)⟩

/-! ## Shapes and sample inputs used by the theorems on bit lists -/

/-- A content subtree of depth `d` as the bit-list calls build it: its chunks
of bits are at depth `d`; above them it has pairs or, where nothing was
written yet, the placeholder of `ZeroHashes` for that depth. -/
def Node.sparse [ZeroHash] : Nat → Node → Prop
  | 0, .chunk _ => True
  | 0, .pair _ _ => False
  | d + 1, .chunk r => r = ZeroHashes (d + 1)
  | d + 1, .pair l r => Node.sparse d l ∧ Node.sparse d r

/-- The chunk of bits at the position to which the lowest `d` digits of `g`
lead in a subtree of depth `d`; a placeholder stands for zero chunks. -/
def Node.leaf : Node → Nat → Nat → Root
  | .chunk r, _, 0 => r
  | .pair _ _, _, 0 => Root.zero
  | .chunk _, _, _ + 1 => Root.zero
  | .pair l r, g, d + 1 => if g.testBit d then r.leaf g d else l.leaf g d

/-- The depth of the content subtree of a bit list of limit `L`. -/
def contentDepth (L : Nat) : Nat := CoverDepth (BitlistType L).BottomNodeLimit

/-- The chunk `Append` and `Pop` write as the length `n`. -/
def lengthChunk (n : Nat) : Root := putLE Root.zero 0 8 n

/-- The standalone view of limit `L` over the content subtree `c` and the
length `n`. -/
def listView (L : Nat) (c : Node) (n : Nat) : BitListView where
  td := BitlistType L
  Hook := none
  BackingNode := .pair c (.chunk (lengthChunk n))
  depth := contentDepth L + 1

/-- The default bit list of limit `L` created without a commit hook,
`BitlistType(L).Default(nil)`: a standalone view. -/
def defaultList [ZeroHash] (L : Nat) : BitListView := (BitlistType L).Default none

/-- The content chunk `k` of a bit list: the chunk at the bottom index `k` of
the content subtree (the left child of the backing node), a placeholder
standing for zero chunks; the zero chunk outside of the content subtree. -/
def BitListView.contentChunk (tv : BitListView) (k : Nat) : Root :=
  match tv.BackingNode with
  | .pair c _ => if k < 2 ^ (tv.depth - 1) then c.leaf k (tv.depth - 1) else Root.zero
  | .chunk _ => Root.zero

/-- A hash function for the sample inputs: the first chunk, its first byte
replaced by the sum of the two first bytes plus one. -/
def sampleHash (a b : Root) : Root := a.set 0 (a.get 0 + b.get 0 + 1)

/-- The zero table of the sample inputs is the one built with `sampleHash`;
its entry 1 is not the zero chunk.  A list of a limit up to 256 has a single
content chunk and reads no entry of the table but entry 0, the zero chunk. -/
instance sampleZeroHash : ZeroHash := ⟨sampleHash⟩

/-- The commit hook of a container that holds the list as its first field and
the number `u` as its second: it returns the new node of the container. -/
def containerHook (u : Nat) : Node → Node := fun v => .pair v (.chunk (lengthChunk u))

/-- The chunk whose first `k` bits are set and whose other bits are clear. -/
def onesChunk (k : Nat) : Root := putLE Root.zero 0 32 (2 ^ k - 1)

/-- The smallest limit for which the `uint64` sum `BitLimit + 0xff` wraps,
`2^64 - 255`. -/
def wrapLimit : Nat := 18446744073709551361

/-- Calls that take a list of limit `wrapLimit` out of its content subtree:
266 appends, then `Set(265, true)`, which lands on bit 9 of the length chunk. -/
def wrapOps : List Op := List.replicate 266 (.append true) ++ [.set 265 true]

/-- `Set(i, true)` for the indices 266 to 319, which land on the bits 10 to 63
of the length chunk of a list of limit `wrapLimit`. -/
def wrapSets : List Op := (List.range 54).map (fun k => Op.set (266 + k) true)

/-! ## Readers, bits and iteration, as the later theorems use them -/

/-- `ReadOffset`.  The `io.Reader` is an in-memory buffer holding the bytes
`r`: `Read(tmp)` copies up to 4 of them into the zeroed `tmp` and reports
`io.EOF` when nothing is left.  The result is the returned value and error,
and what the reader still holds. -/
def ReadOffset (r : List Nat) : (Nat × Option Err) × List Nat :=
  ((uint32LE (r.take 4), if r.isEmpty then some .eof else none), r.drop 4)

/-- Bit `k` of a chunk, counted as the bit lists do: bit `k & 7` of byte
`k >> 3`. -/
def Root.bit (r : Root) (k : Nat) : Bool := (r.get (k >>> 3)).testBit (k &&& 7)

/-- Modelled from the spec: the `BitIter` values that `Iter` returns are not
part of the sources.  `err` is `ErrBitIter{err}` (as `ErrElemIter` in
`complex.go`, its `Next` returns the error with `ok` false); `fn` is the
closure `BitIterFn`, with the view, the length read at the start and the
counter `i` it captures. -/
inductive BitIter where
  | err (e : Err)
  | fn (tv : BitListView) (length i : Nat)

/-- `BitListView.Iter`. -/
def BitListView.Iter (tv : BitListView) : BitIter :=
  match tv.Length with
  | .error e => .err e
  | .ok length => .fn tv length 0

/-- One call of `Next()`: the returned `(elem, ok, err)` and the iterator
after the call.  The view is not changed between the calls. -/
def BitIter.Next : BitIter → (Bool × Bool × Option Err) × BitIter
  | .err e => ((false, false, some e), .err e)
  | .fn tv length i =>
    if i < length then
      match tv.Get i with
      | .ok item => ((item, true, none), .fn tv length ((i + 1) % 2 ^ 64))
      | .error e => ((false, true, some e), .fn tv length ((i + 1) % 2 ^ 64))
    else ((false, false, none), .fn tv length i)

/-- The iterator after `k` calls of `Next()`. -/
def BitIter.after (it : BitIter) : Nat → BitIter
  | 0 => it
  | k + 1 => (it.after k).Next.2

/-- What the `k`-th call of `Next()` is to return when it carries the bit and
the error of `Get(k)`. -/
def nextOfGet : Except Err Bool → Bool × Bool × Option Err
  | .ok item => (item, true, none)
  | .error e => (false, true, some e)

/-- A chunk whose first byte is 2. -/
def Root.two : Root := Root.zero.set 0 2

/-- The chunks of the first `n` bits are there: in the content subtree `c` of
depth `d` the descent to the chunk of every bit below `n` ends on a chunk. -/
def covered (d : Nat) (c : Node) (n : Nat) : Prop :=
  ∀ i, i < n → ∃ r, c.descend (2 ^ (d + 1) + i >>> 8) d = .ok (.chunk r)

/-- Every content bit at an index `n` or above is clear: the chunk at the
bottom index `g % 2^d` of the content subtree `c` of depth `d` holds no bit at
a position `256 * (g % 2^d) + j ≥ n`. -/
def zeroBeyond (d : Nat) (c : Node) (n : Nat) : Prop :=
  ∀ g j, j < 256 → n ≤ 256 * (g % 2 ^ d) + j → (c.leaf g d).bit j = false

/-- The views a bit list of limit `L` goes through when it starts from the
default without a commit hook: a standalone view over a content subtree that
is expanded where bits were written, the chunks of the bits below the length
`n ≤ L` in place and the bits beyond the length clear. -/
def Clean [ZeroHash] (L : Nat) (tv : BitListView) : Prop :=
  ∃ c n, tv = listView L c n ∧ n ≤ L ∧ c.sparse (contentDepth L) ∧
    covered (contentDepth L) c n ∧ zeroBeyond (contentDepth L) c n

/-! ## Chunk bytes -/

theorem Root.get_set_same (r : Root) (i b : Nat) (hi : i < 32) :
    (r.set i b).get i = b % 256 := by
  simp [Root.get, Root.set, List.getD_eq_getElem?_getD, r.size_eq, hi]

theorem Root.get_set_ne (r : Root) (i j b : Nat) (h : i ≠ j) :
    (r.set i b).get j = r.get j := by
  simp [Root.get, Root.set, List.getD_eq_getElem?_getD, List.getElem?_set_ne h]

theorem Root.get_lt (r : Root) (i : Nat) : r.get i < 256 := by
  unfold Root.get
  rw [List.getD_eq_getElem?_getD]
  cases h : r.bytes[i]? with
  | none => simp
  | some x => exact r.byte_lt x (List.getElem?_mem h)

theorem Root.ext_get {r s : Root} (h : ∀ i, i < 32 → r.get i = s.get i) : r = s := by
  cases r with
  | mk rb rs rl =>
  cases s with
  | mk sb ss sl =>
  have : rb = sb := by
    apply List.ext_getElem (by rw [rs, ss])
    intro n h1 h2
    have := h n (by omega)
    simp [Root.get, List.getD_eq_getElem?_getD, List.getElem?_eq_getElem h1, List.getElem?_eq_getElem h2] at this
    exact this
  subst this
  rfl

theorem get_putLE (n : Nat) : ∀ (r : Root) (off v j : Nat), off + n ≤ 32 →
    (putLE r off n v).get j
      = if off ≤ j ∧ j < off + n then (v / 256 ^ (j - off)) % 256 else r.get j := by
  induction n with
  | zero =>
    intro r off v j _
    rw [putLE, if_neg (by omega)]
  | succ n ih =>
    intro r off v j h
    rw [putLE, ih _ _ _ _ (by omega)]
    by_cases h1 : off + 1 ≤ j ∧ j < off + 1 + n
    · rw [if_pos h1, if_pos (by omega)]
      have : j - off = (j - (off + 1)) + 1 := by omega
      rw [this, pow_succ, Nat.mul_comm, Nat.div_div_eq_div_mul]
    · rw [if_neg h1]
      by_cases h2 : j = off
      · subst h2
        rw [Root.get_set_same _ _ _ (by omega), if_pos (by omega)]
        simp
      · rw [Root.get_set_ne _ _ _ _ (Ne.symm h2), if_neg (by omega)]

theorem getLE_congr (n : Nat) : ∀ (r s : Root) (off : Nat),
    (∀ j, off ≤ j → j < off + n → r.get j = s.get j) → getLE r off n = getLE s off n := by
  induction n with
  | zero => intros; rfl
  | succ n ih =>
    intro r s off h
    rw [getLE, getLE, h off (by omega) (by omega), ih r s (off + 1) (fun j h1 h2 => h j (by omega) (by omega))]

theorem getLE_putLE (n : Nat) : ∀ (r : Root) (off v : Nat), off + n ≤ 32 →
    getLE (putLE r off n v) off n = v % 256 ^ n := by
  induction n with
  | zero => intro r off v _; simp [getLE, Nat.mod_one]
  | succ n ih =>
    intro r off v h
    rw [getLE, get_putLE _ _ _ _ _ h, if_pos (by omega)]
    have e : getLE (putLE r off (n + 1) v) (off + 1) n
        = getLE (putLE (r.set off (v % 256)) (off + 1) n (v / 256)) (off + 1) n := rfl
    rw [e, ih _ _ _ (by omega)]
    simp only [Nat.sub_self, pow_zero, Nat.div_one]
    rw [pow_succ, Nat.mul_comm (256 ^ n) 256, Nat.mod_mul]

theorem subView_uint8 (r : Root) (i : Nat) (hi : i < 32) :
    UintMeta.SubViewFromBacking Uint8Type r i = .ok (.uint8 (r.get i)) := by
  have h : ¬ i ≥ 32 := by omega
  simp [UintMeta.SubViewFromBacking, Uint8Type, h]

theorem subView_uint16 (r : Root) (i : Nat) (hi : i < 16) :
    UintMeta.SubViewFromBacking Uint16Type r i = .ok (.uint16 (getLE r (2 * i) 2)) := by
  have h : ¬ i ≥ 16 := by omega
  have e : (2 * i) % 256 = 2 * i := by omega
  simp [UintMeta.SubViewFromBacking, Uint16Type, Uint8Type, h, e]

theorem subView_uint32 (r : Root) (i : Nat) (hi : i < 8) :
    UintMeta.SubViewFromBacking Uint32Type r i = .ok (.uint32 (getLE r (4 * i) 4)) := by
  have h : ¬ i ≥ 8 := by omega
  have e : (4 * i) % 256 = 4 * i := by omega
  simp [UintMeta.SubViewFromBacking, Uint32Type, Uint16Type, Uint8Type, h, e]

theorem subView_uint64 (r : Root) (i : Nat) (hi : i < 4) :
    UintMeta.SubViewFromBacking Uint64Type r i = .ok (.uint64 (getLE r (8 * i) 8)) := by
  have h : ¬ i ≥ 4 := by omega
  have e : (8 * i) % 256 = 8 * i := by omega
  simp [UintMeta.SubViewFromBacking, Uint64Type, Uint32Type, Uint16Type, Uint8Type, h, e]

theorem backing_uint8 (v : Nat) (base : Root) (i : Nat) (hi : i < 32) :
    Uint8View.BackingFromBase v base i = some (base.set i v) := by
  have h : ¬ i ≥ 32 := by omega
  simp [Uint8View.BackingFromBase, h]

theorem backing_uint16 (v : Nat) (base : Root) (i : Nat) (hi : i < 16) :
    Uint16View.BackingFromBase v base i = some (putLE base (2 * i) 2 v) := by
  have h : ¬ i ≥ 16 := by omega
  have e : (i * 2) % 256 = 2 * i := by omega
  simp [Uint16View.BackingFromBase, h, e]

theorem backing_uint32 (v : Nat) (base : Root) (i : Nat) (hi : i < 8) :
    Uint32View.BackingFromBase v base i = some (putLE base (4 * i) 4 v) := by
  have h : ¬ i ≥ 8 := by omega
  have e : (i * 4) % 256 = 4 * i := by omega
  simp [Uint32View.BackingFromBase, h, e]

theorem backing_uint64 (v : Nat) (base : Root) (i : Nat) (hi : i < 4) :
    Uint64View.BackingFromBase v base i = some (putLE base (8 * i) 8 v) := by
  have h : ¬ i ≥ 4 := by omega
  have e : (i * 8) % 256 = 8 * i := by omega
  simp [Uint64View.BackingFromBase, h, e]

theorem backing_bool (b : Bool) (base : Root) (i : Nat) (hi : i < 32) :
    BoolView.BackingFromBase b base i = some (base.set i (if b then 1 else 0)) := by
  have h : ¬ i ≥ 32 := by omega
  cases b <;> simp [BoolView.BackingFromBase, h]

/-- C1 (scalar round trip): a value written to slot `i` of a chunk by
`BackingFromBase` is read back from slot `i` by `SubViewFromBacking`, for the
four unsigned widths and for booleans. -/
theorem scalar_round_trip :
    (∀ (v : Nat) (base : Root) (i : Nat), v < 2 ^ 8 → i < 32 →
      ∃ r, Uint8View.BackingFromBase v base i = some r ∧
        UintMeta.SubViewFromBacking Uint8Type r i = .ok (.uint8 v)) ∧
    (∀ (v : Nat) (base : Root) (i : Nat), v < 2 ^ 16 → i < 16 →
      ∃ r, Uint16View.BackingFromBase v base i = some r ∧
        UintMeta.SubViewFromBacking Uint16Type r i = .ok (.uint16 v)) ∧
    (∀ (v : Nat) (base : Root) (i : Nat), v < 2 ^ 32 → i < 8 →
      ∃ r, Uint32View.BackingFromBase v base i = some r ∧
        UintMeta.SubViewFromBacking Uint32Type r i = .ok (.uint32 v)) ∧
    (∀ (v : Nat) (base : Root) (i : Nat), v < 2 ^ 64 → i < 4 →
      ∃ r, Uint64View.BackingFromBase v base i = some r ∧
        UintMeta.SubViewFromBacking Uint64Type r i = .ok (.uint64 v)) ∧
    (∀ (b : Bool) (base : Root) (i : Nat), i < 32 →
      ∃ r, BoolView.BackingFromBase b base i = some r ∧
        BoolMeta.SubViewFromBacking r i = some (.bool b)) := by
  refine ⟨?_, ?_, ?_, ?_, ?_⟩
  · intro v base i hv hi
    refine ⟨_, backing_uint8 v base i hi, ?_⟩
    rw [subView_uint8 _ _ hi, Root.get_set_same _ _ _ hi, Nat.mod_eq_of_lt (by omega)]
  · intro v base i hv hi
    refine ⟨_, backing_uint16 v base i hi, ?_⟩
    rw [subView_uint16 _ _ hi, getLE_putLE 2 _ _ _ (by omega), Nat.mod_eq_of_lt (by omega)]
  · intro v base i hv hi
    refine ⟨_, backing_uint32 v base i hi, ?_⟩
    rw [subView_uint32 _ _ hi, getLE_putLE 4 _ _ _ (by omega), Nat.mod_eq_of_lt (by omega)]
  · intro v base i hv hi
    refine ⟨_, backing_uint64 v base i hi, ?_⟩
    rw [subView_uint64 _ _ hi, getLE_putLE 8 _ _ _ (by omega), Nat.mod_eq_of_lt (by omega)]
  · intro b base i hi
    refine ⟨_, backing_bool b base i hi, ?_⟩
    have h : ¬ i ≥ 32 := by omega
    cases b <;> simp [BoolMeta.SubViewFromBacking, Root.get_set_same _ _ _ hi, h]

theorem scalar_round_trip_witness :
    (∃ r, Uint8View.BackingFromBase 200 Root.zero 3 = some r ∧
        UintMeta.SubViewFromBacking Uint8Type r 3 = .ok (.uint8 200)) ∧
    (∃ r, Uint64View.BackingFromBase 18446744073709551615 Root.zero 3 = some r ∧
        UintMeta.SubViewFromBacking Uint64Type r 3 = .ok (.uint64 18446744073709551615)) ∧
    (∃ r, BoolView.BackingFromBase true Root.zero 31 = some r ∧
        BoolMeta.SubViewFromBacking r 31 = some (.bool true)) :=
  ⟨scalar_round_trip.1 200 Root.zero 3 (by decide) (by decide),
   scalar_round_trip.2.2.2.1 18446744073709551615 Root.zero 3 (by decide) (by decide),
   scalar_round_trip.2.2.2.2 true Root.zero 31 (by decide)⟩

/-! ## Scalar writes leave the other slots alone -/

theorem putLE_frame (n : Nat) (base : Root) (off v : Nat) (h : off + n ≤ 32) :
    (∀ k, k < n → (putLE base off n v).get (off + k) = (v / 256 ^ k) % 256) ∧
    (∀ j, (j < off ∨ off + n ≤ j) → (putLE base off n v).get j = base.get j) := by
  constructor
  · intro k hk
    rw [get_putLE n _ _ _ _ h, if_pos (by omega), Nat.add_sub_cancel_left]
  · intro j hj
    rw [get_putLE n _ _ _ _ h, if_neg (by omega)]

/-- C2 (scalar write frame): the chunk returned by `BackingFromBase` holds the
little-endian bytes of the value in the slot's byte span, equals the base at
every other position, and every other slot reads back as before. -/
theorem scalar_write_frame :
    (∀ (v : Nat) (base : Root) (i : Nat), v < 2 ^ 8 → i < 32 →
      ∃ r, Uint8View.BackingFromBase v base i = some r ∧ r.get i = v ∧
        (∀ j, j < 32 → j ≠ i → r.get j = base.get j) ∧
        (∀ j, j < 32 → j ≠ i → UintMeta.SubViewFromBacking Uint8Type r j
            = UintMeta.SubViewFromBacking Uint8Type base j)) ∧
    (∀ (v : Nat) (base : Root) (i : Nat), v < 2 ^ 16 → i < 16 →
      ∃ r, Uint16View.BackingFromBase v base i = some r ∧
        (∀ k, k < 2 → r.get (i * 2 + k) = (v / 256 ^ k) % 256) ∧
        (∀ j, j < 32 → (j < i * 2 ∨ i * 2 + 2 ≤ j) → r.get j = base.get j) ∧
        (∀ j, j < 16 → j ≠ i → UintMeta.SubViewFromBacking Uint16Type r j
            = UintMeta.SubViewFromBacking Uint16Type base j)) ∧
    (∀ (v : Nat) (base : Root) (i : Nat), v < 2 ^ 32 → i < 8 →
      ∃ r, Uint32View.BackingFromBase v base i = some r ∧
        (∀ k, k < 4 → r.get (i * 4 + k) = (v / 256 ^ k) % 256) ∧
        (∀ j, j < 32 → (j < i * 4 ∨ i * 4 + 4 ≤ j) → r.get j = base.get j) ∧
        (∀ j, j < 8 → j ≠ i → UintMeta.SubViewFromBacking Uint32Type r j
            = UintMeta.SubViewFromBacking Uint32Type base j)) ∧
    (∀ (v : Nat) (base : Root) (i : Nat), v < 2 ^ 64 → i < 4 →
      ∃ r, Uint64View.BackingFromBase v base i = some r ∧
        (∀ k, k < 8 → r.get (i * 8 + k) = (v / 256 ^ k) % 256) ∧
        (∀ j, j < 32 → (j < i * 8 ∨ i * 8 + 8 ≤ j) → r.get j = base.get j) ∧
        (∀ j, j < 4 → j ≠ i → UintMeta.SubViewFromBacking Uint64Type r j
            = UintMeta.SubViewFromBacking Uint64Type base j)) ∧
    (∀ (b : Bool) (base : Root) (i : Nat), i < 32 →
      ∃ r, BoolView.BackingFromBase b base i = some r ∧
        r.get i = (if b then 1 else 0) ∧
        (∀ j, j < 32 → j ≠ i → r.get j = base.get j) ∧
        (∀ j, j < 32 → j ≠ i → BoolMeta.SubViewFromBacking r j
            = BoolMeta.SubViewFromBacking base j)) := by
  refine ⟨?_, ?_, ?_, ?_, ?_⟩
  · intro v base i hv hi
    refine ⟨_, backing_uint8 v base i hi, ?_, ?_, ?_⟩
    · rw [Root.get_set_same _ _ _ hi, Nat.mod_eq_of_lt (by omega)]
    · intro j _ hj
      exact Root.get_set_ne _ _ _ _ (Ne.symm hj)
    · intro j hj hji
      rw [subView_uint8 _ _ hj, subView_uint8 _ _ hj, Root.get_set_ne _ _ _ _ (Ne.symm hji)]
  · intro v base i hv hi
    have hf := putLE_frame 2 base (2 * i) v (by omega)
    refine ⟨_, backing_uint16 v base i hi, ?_, ?_, ?_⟩
    · intro k hk
      rw [Nat.mul_comm i 2]; exact hf.1 k hk
    · intro j _ hj
      exact hf.2 j (by omega)
    · intro j hj hji
      rw [subView_uint16 _ _ hj, subView_uint16 _ _ hj]
      rw [getLE_congr 2 _ base (2 * j) (fun x h1 h2 => hf.2 x (by omega))]
  · intro v base i hv hi
    have hf := putLE_frame 4 base (4 * i) v (by omega)
    refine ⟨_, backing_uint32 v base i hi, ?_, ?_, ?_⟩
    · intro k hk
      rw [Nat.mul_comm i 4]; exact hf.1 k hk
    · intro j _ hj
      exact hf.2 j (by omega)
    · intro j hj hji
      rw [subView_uint32 _ _ hj, subView_uint32 _ _ hj]
      rw [getLE_congr 4 _ base (4 * j) (fun x h1 h2 => hf.2 x (by omega))]
  · intro v base i hv hi
    have hf := putLE_frame 8 base (8 * i) v (by omega)
    refine ⟨_, backing_uint64 v base i hi, ?_, ?_, ?_⟩
    · intro k hk
      rw [Nat.mul_comm i 8]; exact hf.1 k hk
    · intro j _ hj
      exact hf.2 j (by omega)
    · intro j hj hji
      rw [subView_uint64 _ _ hj, subView_uint64 _ _ hj]
      rw [getLE_congr 8 _ base (8 * j) (fun x h1 h2 => hf.2 x (by omega))]
  · intro b base i hi
    refine ⟨_, backing_bool b base i hi, ?_, ?_, ?_⟩
    · rw [Root.get_set_same _ _ _ hi]; cases b <;> rfl
    · intro j _ hj
      exact Root.get_set_ne _ _ _ _ (Ne.symm hj)
    · intro j hj hji
      simp only [BoolMeta.SubViewFromBacking, Root.get_set_ne _ _ _ _ (Ne.symm hji)]

theorem scalar_write_frame_witness :
    ∃ r, Uint8View.BackingFromBase 200 Root.sample 3 = some r ∧ r.get 3 = 200 ∧
      (∀ j, j < 32 → j ≠ 3 → r.get j = Root.sample.get j) ∧
      (∀ j, j < 32 → j ≠ 3 → UintMeta.SubViewFromBacking Uint8Type r j
          = UintMeta.SubViewFromBacking Uint8Type Root.sample j) :=
  scalar_write_frame.1 200 Root.sample 3 (by decide) (by decide)

/-! ## The offset table -/

theorem uint32LE_putUint32 (v : Nat) (h : v < 2 ^ 32) : uint32LE (putUint32 v) = v := by
  simp only [uint32LE, putUint32, List.getD_cons_zero, List.getD_cons_succ]
  omega

theorem length_putUint32 (v : Nat) : (putUint32 v).length = 4 := rfl

theorem drop_flatten_append {α : Type} (xs : List (List α)) (rest : List α) :
    ∀ k, ((xs.flatten ++ rest).drop ((xs.take k).map List.length).sum)
      = (xs.drop k).flatten ++ rest := by
  induction xs with
  | nil => intro k; simp
  | cons x xs ih =>
    intro k
    cases k with
    | zero => simp
    | succ k =>
      simp only [List.take_succ_cons, List.map_cons, List.sum_cons, List.flatten_cons,
        List.append_assoc, List.drop_succ_cons]
      rw [List.drop_append]
      exact ih k

theorem WriteOffset_ok (w : List Nat) (p s : Nat) (h : p + s < 2 ^ 32) :
    WriteOffset w p s = (w ++ putUint32 (p + s), .ok (p + s)) := by
  have h1 : ¬ p ≥ 2 ^ 32 := by omega
  have h2 : ¬ s ≥ 2 ^ 32 := by omega
  have e : (p + s) % 2 ^ 64 = p + s := Nat.mod_eq_of_lt (by omega)
  have h3 : ¬ p + s ≥ 2 ^ 32 := by omega
  have e3 : (p + s) % 2 ^ 32 = p + s := Nat.mod_eq_of_lt h
  simp only [WriteOffset, h1, h2, if_false, e, h3, e3]

theorem writeOffsets_ok (els : List Elem) : ∀ (w : List Nat) (p s : Nat),
    (∀ el ∈ els, el.ValueByteLength = .ok el.size) →
    (∀ o ∈ offsetsFrom p s (els.map Elem.size), o < 2 ^ 32) →
    writeOffsets w p s (els.map .ok)
      = (w ++ ((offsetsFrom p s (els.map Elem.size)).map putUint32).flatten, .ok ()) := by
  induction els with
  | nil => intro w p s _ _; simp [writeOffsets, offsetsFrom]
  | cons el els ih =>
    intro w p s hv ho
    have h1 : p + s < 2 ^ 32 := ho _ (by simp [offsetsFrom])
    simp only [List.map_cons, writeOffsets, hv el (List.mem_cons_self _ _), WriteOffset_ok w p s h1]
    rw [ih _ _ _ (fun e he => hv e (List.mem_cons_of_mem _ he))
      (fun o ho1 => ho o (by simp [offsetsFrom, ho1]))]
    simp [offsetsFrom]

theorem writeElems_ok (els : List Elem) : ∀ (w : List Nat),
    (∀ el ∈ els, el.Serialize.2 = none) →
    writeElems w (els.map .ok) = (w ++ (els.map (fun el => el.Serialize.1)).flatten, .ok ()) := by
  induction els with
  | nil => intro w _; simp [writeElems]
  | cons el els ih =>
    intro w h
    have h1 := h el (List.mem_cons_self _ _)
    have e : el.Serialize = (el.Serialize.1, none) := by rw [← h1]
    simp only [List.map_cons, writeElems]
    rw [e]
    simp only []
    rw [ih _ (fun e he => h e (List.mem_cons_of_mem _ he))]
    simp

theorem offsetsFrom_eq (sizes : List Nat) : ∀ (p s : Nat),
    offsetsFrom p s sizes
      = (List.range sizes.length).map (fun k => p + s + (sizes.take k).sum) := by
  induction sizes with
  | nil => intro p s; simp [offsetsFrom]
  | cons x xs ih =>
    intro p s
    rw [offsetsFrom, ih, List.length_cons, List.range_succ_eq_map]
    simp only [List.map_cons, List.take_zero, List.sum_nil, Nat.add_zero, List.map_map]
    congr 1
    apply List.map_congr_left
    intro k _
    simp only [Function.comp, List.take_succ_cons, List.sum_cons]
    omega

theorem take_drop_flatten_append {α : Type} (xs : List (List α)) (rest : List α) (k : Nat)
    (hk : k < xs.length) :
    ((xs.flatten ++ rest).drop ((xs.take k).map List.length).sum).take (xs[k]).length
      = xs[k] := by
  rw [drop_flatten_append, List.drop_eq_getElem_cons hk, List.flatten_cons, List.append_assoc,
    List.take_left]

theorem sum_length_words (offs : List Nat) :
    ((offs.map putUint32).map List.length).sum = 4 * offs.length := by
  induction offs with
  | nil => rfl
  | cons o os ih =>
    simp only [List.map_cons, List.sum_cons, ih, length_putUint32, List.length_cons]
    omega

theorem offsetAt_words (offs : List Nat) (rest : List Nat) (k : Nat) (hk : k < offs.length)
    (hlt : offs[k] < 2 ^ 32) :
    offsetAt ((offs.map putUint32).flatten ++ rest) k = offs[k] := by
  have hk2 : k < (offs.map putUint32).length := by simpa using hk
  have h := take_drop_flatten_append (offs.map putUint32) rest k hk2
  have e : (((offs.map putUint32).take k).map List.length).sum = 4 * k := by
    rw [← List.map_take, sum_length_words, List.length_take, Nat.min_eq_left (by omega)]
  rw [e] at h
  simp only [List.getElem_map, length_putUint32] at h
  rw [offsetAt, OffsetByteLength, h, uint32LE_putUint32 _ hlt]

/-- C8 (offset table points at the data): for a series of `length` elements
that each write exactly the bytes they declare, with every offset below 2^32,
the encoder writes `4 * length` bytes of offsets and then the elements; the
`k`-th offset is `4 * length` plus the sizes before `k`, which is where the
bytes of element `k` begin, and the total is `4 * length` plus all sizes. -/
theorem offset_table_points_at_data (els : List Elem) (w : List Nat)
    (hexact : ∀ el ∈ els, el.ValueByteLength = .ok el.size ∧ el.Serialize.2 = none)
    (hfit : ∀ k, k < els.length →
      4 * els.length + ((els.map Elem.size).take k).sum < 2 ^ 32) :
    ∃ out, serializeComplexVarElemSeries els.length (els.map .ok) w = (w ++ out, .ok ()) ∧
      out = ((List.range els.length).map (fun k =>
              putUint32 (4 * els.length + ((els.map Elem.size).take k).sum))).flatten
            ++ (els.map (fun el => el.Serialize.1)).flatten ∧
      out.length = 4 * els.length + (els.map Elem.size).sum ∧
      (∀ k, k < els.length →
        offsetAt out k = 4 * els.length + ((els.map Elem.size).take k).sum) ∧
      (∀ k (hk : k < els.length),
        (out.drop (offsetAt out k)).take (els[k]).size = (els[k]).Serialize.1) := by
  have hp : (els.length * OffsetByteLength) % 2 ^ 64 = 4 * els.length := by
    rw [OffsetByteLength, Nat.mul_comm]
    cases hl : els.length with
    | zero => rfl
    | succ n =>
      have := hfit 0 (by omega)
      rw [hl] at this
      simp only [List.take_zero, List.sum_nil, Nat.add_zero] at this
      exact Nat.mod_eq_of_lt (by omega)
  have hoffs : offsetsFrom (4 * els.length) 0 (els.map Elem.size)
      = (List.range els.length).map (fun k => 4 * els.length + ((els.map Elem.size).take k).sum) := by
    rw [offsetsFrom_eq]; simp
  have hlt : ∀ o ∈ offsetsFrom (4 * els.length) 0 (els.map Elem.size), o < 2 ^ 32 := by
    intro o ho
    rw [hoffs] at ho
    obtain ⟨k, hk, rfl⟩ := List.mem_map.1 ho
    exact hfit k (List.mem_range.1 hk)
  have hrun : serializeComplexVarElemSeries els.length (els.map .ok) w
      = (w ++ ((offsetsFrom (4 * els.length) 0 (els.map Elem.size)).map putUint32).flatten
          ++ (els.map (fun el => el.Serialize.1)).flatten, .ok ()) := by
    simp only [serializeComplexVarElemSeries, hp]
    rw [writeOffsets_ok els w _ _ (fun el he => (hexact el he).1) hlt]
    simp only []
    rw [writeElems_ok els _ (fun el he => (hexact el he).2)]
  have hlen : (offsetsFrom (4 * els.length) 0 (els.map Elem.size)).length = els.length := by
    rw [hoffs]; simp
  have hget : ∀ k (hk : k < (offsetsFrom (4 * els.length) 0 (els.map Elem.size)).length),
      (offsetsFrom (4 * els.length) 0 (els.map Elem.size))[k]
        = 4 * els.length + ((els.map Elem.size).take k).sum := by
    intro k hk
    simp only [hoffs, List.getElem_map, List.getElem_range]
  have hat : ∀ k, k < els.length →
      offsetAt (((offsetsFrom (4 * els.length) 0 (els.map Elem.size)).map putUint32).flatten
          ++ (els.map (fun el => el.Serialize.1)).flatten) k
        = 4 * els.length + ((els.map Elem.size).take k).sum := by
    intro k hk
    have hk1 : k < (offsetsFrom (4 * els.length) 0 (els.map Elem.size)).length := by
      rw [hlen]; exact hk
    rw [offsetAt_words _ _ k hk1 (by rw [hget k hk1]; exact hfit k hk)]
    exact hget k hk1
  refine ⟨((offsetsFrom (4 * els.length) 0 (els.map Elem.size)).map putUint32).flatten
          ++ (els.map (fun el => el.Serialize.1)).flatten, ?_, ?_, ?_, ?_, ?_⟩
  · rw [hrun, List.append_assoc]
  · rw [hoffs, List.map_map]; rfl
  · rw [List.length_append, List.length_flatten, List.length_flatten, sum_length_words, hlen,
      List.map_map]
    rfl
  · exact hat
  · intro k hk
    rw [hat k hk]
    have hk2 : k < (els.map (fun el => el.Serialize.1)).length := by simpa using hk
    have h := take_drop_flatten_append (els.map (fun el => el.Serialize.1)) [] k hk2
    simp only [List.append_nil, List.getElem_map] at h
    have e : (((els.map (fun el => el.Serialize.1)).take k).map List.length).sum
        = ((els.map Elem.size).take k).sum := by
      rw [← List.map_take, ← List.map_take, List.map_map]; rfl
    rw [e] at h
    have e4 : (((offsetsFrom (4 * els.length) 0 (els.map Elem.size)).map putUint32).flatten).length
        = 4 * els.length := by
      rw [List.length_flatten, sum_length_words, hlen]
    have e5 := @List.drop_append Nat
      ((offsetsFrom (4 * els.length) 0 (els.map Elem.size)).map putUint32).flatten
      (els.map (fun el => el.Serialize.1)).flatten ((els.map Elem.size).take k).sum
    rw [e4] at e5
    rw [e5]
    exact h

theorem offset_table_points_at_data_witness :
    ∃ out, serializeComplexVarElemSeries 2 [.ok Elem.five, .ok Elem.three] []
        = ([] ++ out, .ok ()) ∧
      out = [8, 0, 0, 0, 13, 0, 0, 0, 1, 2, 3, 4, 5, 6, 7, 8] ∧
      out.length = 16 ∧ offsetAt out 0 = 8 ∧ offsetAt out 1 = 13 := by
  obtain ⟨out, h1, h2, h3, h4, _⟩ := offset_table_points_at_data [Elem.five, Elem.three] []
    (by intro el hel
        simp only [List.mem_cons, List.mem_singleton, List.not_mem_nil, or_false] at hel
        rcases hel with rfl | rfl <;> exact ⟨rfl, rfl⟩)
    (by intro k hk
        simp only [List.length_cons, List.length_nil] at hk
        interval_cases k <;> decide)
  exact ⟨out, h1, h2, h3, h4 0 (by decide), h4 1 (by decide)⟩

theorem WriteOffset_panics (w : List Nat) (p s : Nat) (h : ¬ p + s < 2 ^ 32) :
    ∃ a, WriteOffset w p s = (w, .panic a) := by
  unfold WriteOffset
  by_cases h1 : p ≥ 2 ^ 32
  · exact ⟨_, if_pos h1⟩
  · rw [if_neg h1]
    by_cases h2 : s ≥ 2 ^ 32
    · exact ⟨_, if_pos h2⟩
    · rw [if_neg h2]
      have e : (p + s) % 2 ^ 64 = p + s := Nat.mod_eq_of_lt (by omega)
      have h3 : (p + s) % 2 ^ 64 ≥ 2 ^ 32 := by rw [e]; omega
      exact ⟨_, if_pos h3⟩

theorem writeOffsets_inv (it : List (Except Err Elem)) : ∀ (w : List Nat) (p s : Nat),
    (writeOffsets w p s it).2 = .ok () →
      (∀ o ∈ offsetsFrom p s (it.map declaredSize), o < 2 ^ 32) ∧
      (writeOffsets w p s it).1
        = w ++ ((offsetsFrom p s (it.map declaredSize)).map putUint32).flatten := by
  induction it with
  | nil => intro w p s _; simp [writeOffsets, offsetsFrom]
  | cons x it ih =>
    intro w p s h
    cases x with
    | error e => simp [writeOffsets] at h
    | ok el =>
      cases hv : el.ValueByteLength with
      | error e => simp [writeOffsets, hv] at h
      | ok v =>
        by_cases hps : p + s < 2 ^ 32
        · simp only [writeOffsets, hv, WriteOffset_ok w p s hps] at h ⊢
          obtain ⟨h1, h2⟩ := ih _ _ _ h
          simp only [List.map_cons, declaredSize, hv, offsetsFrom, List.mem_cons,
            List.flatten_cons]
          refine ⟨?_, ?_⟩
          · intro o ho
            rcases ho with rfl | ho
            · exact hps
            · exact h1 o ho
          · rw [h2, List.append_assoc]
        · exfalso
          obtain ⟨a, ha⟩ := WriteOffset_panics w p s hps
          simp [writeOffsets, hv, ha] at h

theorem writeElems_prefix (it : List (Except Err Elem)) : ∀ (w : List Nat),
    ∃ data, (writeElems w it).1 = w ++ data := by
  induction it with
  | nil => intro w; exact ⟨[], by simp [writeElems]⟩
  | cons x it ih =>
    intro w
    cases x with
    | error e => exact ⟨[], by simp [writeElems]⟩
    | ok el =>
      rcases hs : el.Serialize with ⟨bytes, _ | e⟩
      · obtain ⟨data, hd⟩ := ih (w ++ bytes)
        exact ⟨bytes ++ data, by simp [writeElems, hs, hd]⟩
      · exact ⟨bytes, by simp [writeElems, hs]⟩

theorem offsetsFrom_length (sizes : List Nat) (p s : Nat) :
    (offsetsFrom p s sizes).length = sizes.length := by
  rw [offsetsFrom_eq]; simp

theorem offsetsFrom_getElem (sizes : List Nat) (p s k : Nat)
    (hk : k < (offsetsFrom p s sizes).length) :
    (offsetsFrom p s sizes)[k] = p + s + (sizes.take k).sum := by
  simp only [offsetsFrom_eq, List.getElem_map, List.getElem_range]

/-- C9, as amended: the offsets of a completed series never decrease, and each
is the previous one plus the size declared by the element between them. -/
theorem offsets_nondecreasing (length : Nat) (it : List (Except Err Elem)) (w : List Nat)
    (h : (serializeComplexVarElemSeries length it w).2 = .ok ()) :
    ∃ out, (serializeComplexVarElemSeries length it w).1 = w ++ out ∧
      ∀ k (hk : k + 1 < it.length),
        offsetAt out (k + 1) = offsetAt out k + declaredSize it[k] ∧
        offsetAt out k ≤ offsetAt out (k + 1) ∧ offsetAt out (k + 1) < 2 ^ 32 := by
  unfold serializeComplexVarElemSeries at h ⊢
  rcases hw : writeOffsets w ((length * OffsetByteLength) % 2 ^ 64) 0 it with ⟨w1, r⟩
  rw [hw] at h
  cases r with
  | error e => simp at h
  | panic a => simp at h
  | ok u =>
    cases u
    simp only [hw]
    have hinv := writeOffsets_inv it w _ 0 (by rw [hw])
    rw [hw] at hinv
    obtain ⟨hlt, hw1⟩ := hinv
    simp only at hw1
    obtain ⟨data, hd⟩ := writeElems_prefix it w1
    refine ⟨((offsetsFrom ((length * OffsetByteLength) % 2 ^ 64) 0
      (it.map declaredSize)).map putUint32).flatten ++ data,
      by rw [hd, hw1, List.append_assoc], ?_⟩
    intro k hk
    have hl := offsetsFrom_length (it.map declaredSize) ((length * OffsetByteLength) % 2 ^ 64) 0
    rw [List.length_map] at hl
    have hk0 : k < (offsetsFrom ((length * OffsetByteLength) % 2 ^ 64) 0
        (it.map declaredSize)).length := by omega
    have hk1 : k + 1 < (offsetsFrom ((length * OffsetByteLength) % 2 ^ 64) 0
        (it.map declaredSize)).length := by omega
    have g0 := offsetsFrom_getElem _ _ _ k hk0
    have g1 := offsetsFrom_getElem _ _ _ (k + 1) hk1
    have a0 := offsetAt_words _ data k hk0 (hlt _ (List.getElem_mem _))
    have a1 := offsetAt_words _ data (k + 1) hk1 (hlt _ (List.getElem_mem _))
    have hsum : ((it.map declaredSize).take (k + 1)).sum
        = ((it.map declaredSize).take k).sum + declaredSize it[k] := by
      rw [List.sum_take_succ _ _ (by simpa using (by omega : k < it.length))]
      simp
    have hb := hlt _ (List.getElem_mem hk1)
    rw [a0, a1, g0, g1, hsum]
    rw [g1, hsum] at hb
    omega

theorem offsets_nondecreasing_witness :
    ∃ out, (serializeComplexVarElemSeries 2 [.ok Elem.five, .ok Elem.three] []).1 = [] ++ out ∧
      ∀ k (hk : k + 1 < [(Except.ok Elem.five : Except Err Elem), Except.ok Elem.three].length),
        offsetAt out (k + 1)
            = offsetAt out k + declaredSize [(Except.ok Elem.five : Except Err Elem), Except.ok Elem.three][k] ∧
        offsetAt out k ≤ offsetAt out (k + 1) ∧ offsetAt out (k + 1) < 2 ^ 32 :=
  offsets_nondecreasing 2 [.ok Elem.five, .ok Elem.three] [] (by decide)

/-- C9, as stated, fails: an element of size zero gives two equal consecutive
offsets and the encoder completes. -/
theorem offsets_not_strictly_increasing :
    (serializeComplexVarElemSeries 2 [.ok Elem.empty, .ok Elem.three] []).2 = .ok () ∧
    offsetAt (serializeComplexVarElemSeries 2 [.ok Elem.empty, .ok Elem.three] []).1 0 = 8 ∧
    offsetAt (serializeComplexVarElemSeries 2 [.ok Elem.empty, .ok Elem.three] []).1 1 = 8 := by
  decide

/-- C10, as amended: an offset that does not fit 4 bytes makes `WriteOffset`
panic, with nothing written, and the panic goes through the series encoder. -/
theorem WriteOffset_overflow_panics (w : List Nat) (prevOffset elemLen : Nat)
    (h : prevOffset ≥ 2 ^ 32 ∨ elemLen ≥ 2 ^ 32 ∨ prevOffset + elemLen ≥ 2 ^ 32) :
    (WriteOffset w prevOffset elemLen).2.isPanic = true ∧
    (WriteOffset w prevOffset elemLen).2.isError = false ∧
    (WriteOffset w prevOffset elemLen).1 = w ∧
    ∀ (el : Elem) (rest : List (Except Err Elem)) (s : Nat), el.ValueByteLength = .ok s →
      (writeOffsets w prevOffset elemLen (.ok el :: rest)).2.isPanic = true ∧
      (writeOffsets w prevOffset elemLen (.ok el :: rest)).1 = w ∧
      ∀ length, (length * OffsetByteLength) % 2 ^ 64 = prevOffset → elemLen = 0 →
        (serializeComplexVarElemSeries length (.ok el :: rest) w).2.isPanic = true ∧
        (serializeComplexVarElemSeries length (.ok el :: rest) w).1 = w := by
  obtain ⟨a, ha⟩ := WriteOffset_panics w prevOffset elemLen (by omega)
  refine ⟨by rw [ha]; rfl, by rw [ha]; rfl, by rw [ha], ?_⟩
  intro el rest s hs
  have hw : writeOffsets w prevOffset elemLen (.ok el :: rest) = (w, .panic a) := by
    simp only [writeOffsets, hs, ha]
  refine ⟨by rw [hw]; rfl, by rw [hw], ?_⟩
  intro length hl h0
  subst h0
  have hs2 : serializeComplexVarElemSeries length (.ok el :: rest) w = (w, .panic a) := by
    simp only [serializeComplexVarElemSeries, hl, hw]
  exact ⟨by rw [hs2]; rfl, by rw [hs2]⟩

theorem WriteOffset_overflow_panics_witness :
    (WriteOffset [] 4294967295 1).2.isPanic = true ∧
    (WriteOffset [] 4294967295 1).2.isError = false ∧
    (WriteOffset [] 4294967295 1).1 = [] ∧
    ∀ (el : Elem) (rest : List (Except Err Elem)) (s : Nat), el.ValueByteLength = .ok s →
      (writeOffsets [] 4294967295 1 (.ok el :: rest)).2.isPanic = true ∧
      (writeOffsets [] 4294967295 1 (.ok el :: rest)).1 = [] :=
  ⟨(WriteOffset_overflow_panics [] 4294967295 1 (by decide)).1,
   (WriteOffset_overflow_panics [] 4294967295 1 (by decide)).2.1,
   (WriteOffset_overflow_panics [] 4294967295 1 (by decide)).2.2.1,
   fun el rest s hs =>
     ⟨((WriteOffset_overflow_panics [] 4294967295 1 (by decide)).2.2.2 el rest s hs).1,
      ((WriteOffset_overflow_panics [] 4294967295 1 (by decide)).2.2.2 el rest s hs).2.1⟩⟩

/-- C10, as stated, fails: the failure is a panic, not a returned error. -/
theorem WriteOffset_overflow_not_error :
    (WriteOffset [] 4294967296 0).2 = .panic .invalidPrevOffset ∧
    (WriteOffset [] 4294967296 0).2.isError = false ∧
    (serializeComplexVarElemSeries 1073741824 [.ok Elem.three] []).2
      = .panic .invalidPrevOffset := by
  decide

/-! ## Generalized indices and navigation -/

theorem gindexDepth.count_eq (fuel : Nat) : ∀ (g d : Nat), 2 ^ d ≤ g → g < 2 ^ (d + 1) →
    d ≤ fuel → gindexDepth.count fuel g = d := by
  induction fuel with
  | zero =>
    intro g d _ _ hd
    have : d = 0 := by omega
    subst this; rfl
  | succ fuel ih =>
    intro g d h1 h2 hd
    cases d with
    | zero =>
      have : g < 2 := by simpa using h2
      simp [gindexDepth.count, this]
    | succ d =>
      have h3 : 2 ≤ g := by
        have : 2 ^ 1 ≤ 2 ^ (d + 1) := Nat.pow_le_pow_right (by decide) (by omega)
        omega
      have h4 : ¬ g < 2 := by omega
      rw [gindexDepth.count, if_neg h4, ih (g / 2) d ?_ ?_ (by omega)]
      · rw [pow_succ] at h1
        omega
      · rw [pow_succ] at h2
        omega

theorem gindexDepth_eq (d k : Nat) (hd : d ≤ 64) (hk : k < 2 ^ d) :
    gindexDepth (2 ^ d + k) = d :=
  gindexDepth.count_eq 64 _ d (by omega) (by rw [pow_succ]; omega) hd

theorem CoverDepth.search_spec (n : Nat) (fuel : Nat) : ∀ (d0 D : Nat), d0 ≤ D → D ≤ d0 + fuel →
    n ≤ 2 ^ D →
    d0 ≤ CoverDepth.search n fuel d0 ∧ CoverDepth.search n fuel d0 ≤ D ∧
      n ≤ 2 ^ CoverDepth.search n fuel d0 ∧
      ∀ d, d0 ≤ d → d < CoverDepth.search n fuel d0 → ¬ n ≤ 2 ^ d := by
  induction fuel with
  | zero =>
    intro d0 D h1 h2 h3
    have : D = d0 := by omega
    subst this
    exact ⟨Nat.le_refl _, Nat.le_refl _, h3, fun d hd hd2 => by simp [CoverDepth.search] at hd2; omega⟩
  | succ fuel ih =>
    intro d0 D h1 h2 h3
    by_cases h : n ≤ 2 ^ d0
    · simp only [CoverDepth.search, if_pos h]
      exact ⟨Nat.le_refl _, h1, h, fun d hd hd2 => by omega⟩
    · simp only [CoverDepth.search, if_neg h]
      have hne : D ≠ d0 := by
        intro e; subst e; exact h h3
      obtain ⟨a, b, c, e⟩ := ih (d0 + 1) D (by omega) (by omega) h3
      refine ⟨by omega, b, c, ?_⟩
      intro d hd hd2
      by_cases hdd : d = d0
      · subst hdd; exact h
      · exact e d (by omega) hd2

/-- The modelled `CoverDepth` is the smallest depth whose capacity covers
`n`, for every `n` up to `2^64`. -/
theorem CoverDepth_spec (n : Nat) (hn : n ≤ 2 ^ 64) :
    n ≤ 2 ^ CoverDepth n ∧ ∀ d, n ≤ 2 ^ d → CoverDepth n ≤ d := by
  obtain ⟨_, b, c, e⟩ := CoverDepth.search_spec n 64 0 64 (by omega) (by omega) hn
  refine ⟨c, ?_⟩
  intro d hd
  by_contra hlt
  exact e d (by omega) (by unfold CoverDepth at hlt; omega) hd

theorem Node.rebind_zero [ZeroHash] (t : Node) (g : Nat) (e : Bool) :
    t.rebind g e 0 = .ok (fun v => v) := by
  cases t <;> rfl

theorem Node.Getter_right (a b : Node) : (Node.pair a b).Getter RightGindex = .ok b := by
  cases b <;> rfl

theorem Node.Setter_right [ZeroHash] (a b : Node) :
    (Node.pair a b).Setter RightGindex false = .ok (fun v => .pair a v) := by
  cases b <;> rfl

theorem contentDepth_bound (L i : Nat) (hL : L + 255 < 2 ^ 64) (hi : i < L) :
    i >>> 8 < 2 ^ contentDepth L ∧ contentDepth L + 1 < 64 := by
  have hb : (BitlistType L).BottomNodeLimit = (L + 255) / 256 := by
    simp only [BitListTypeDef.BottomNodeLimit, BitlistType, Nat.shiftRight_eq_div_pow]
    rw [Nat.mod_eq_of_lt (by omega)]
  have h56 : (L + 255) / 256 ≤ 2 ^ 56 := by omega
  obtain ⟨h1, h2⟩ := CoverDepth_spec ((L + 255) / 256) (by omega)
  have h3 := h2 56 h56
  unfold contentDepth
  rw [hb, Nat.shiftRight_eq_div_pow]
  refine ⟨?_, by omega⟩
  have : i / 2 ^ 8 < (L + 255) / 256 := by omega
  omega

theorem getLE_lengthChunk (n : Nat) (hn : n < 2 ^ 64) : getLE (lengthChunk n) 0 8 = n := by
  rw [lengthChunk, getLE_putLE 8 _ _ _ (by omega), Nat.mod_eq_of_lt (by omega)]

theorem Length_listView (L : Nat) (c : Node) (n : Nat) (hn : n ≤ L) (hL : L < 2 ^ 64) :
    (listView L c n).Length = .ok n := by
  have h : ¬ n > L := by omega
  simp only [BitListView.Length, listView, Node.Getter_right, getLE_lengthChunk n (by omega),
    BitlistType, h, if_false]

theorem ToGindex64_ok (i d : Nat) (hd : d < 64) (hi : i < 2 ^ d) :
    ToGindex64 i d = .ok (2 ^ d + i) := by
  have h1 : ¬ d ≥ 64 := by omega
  have h2 : ¬ i ≥ 2 ^ d := by omega
  simp only [ToGindex64, h1, h2, if_false]

theorem testBit_content (d k : Nat) (hk : k < 2 ^ d) : (2 ^ (d + 1) + k).testBit d = false := by
  rw [Nat.testBit_two_pow_add_gt (by omega), Nat.testBit_lt_two_pow hk]

theorem Getter_content (c l : Node) (d k : Nat) (hd : d + 1 < 64) (hk : k < 2 ^ d) :
    (Node.pair c l).Getter (2 ^ (d + 1) + k) = c.descend (2 ^ (d + 1) + k) d := by
  have h0 : 2 ^ (d + 1) + k ≠ 0 := by
    have := Nat.two_pow_pos (d + 1)
    omega
  have hk2 : k < 2 ^ (d + 1) := by rw [pow_succ]; omega
  simp only [Node.Getter, h0, if_false, gindexDepth_eq (d + 1) k (by omega) hk2, Node.descend,
    testBit_content d k hk]
  rfl

theorem Setter_content [ZeroHash] (c l : Node) (d k : Nat) (e : Bool) (hd : d + 1 < 64) (hk : k < 2 ^ d)
    (f : Link) (hf : c.rebind (2 ^ (d + 1) + k) e d = .ok f) :
    (Node.pair c l).Setter (2 ^ (d + 1) + k) e = .ok (fun v => .pair (f v) l) := by
  have h0 : 2 ^ (d + 1) + k ≠ 0 := by
    have := Nat.two_pow_pos (d + 1)
    omega
  have hk2 : k < 2 ^ (d + 1) := by rw [pow_succ]; omega
  simp only [Node.Setter, h0, if_false, gindexDepth_eq (d + 1) k (by omega) hk2, Node.rebind,
    testBit_content d k hk, hf]
  rfl

/-! ## The bit-list calls on well-shaped views -/

theorem GetNode_listView (L : Nat) (c : Node) (n i : Nat) (hL : L + 255 < 2 ^ 64) (hi : i < L) :
    (listView L c n).GetNode (i >>> 8)
      = c.descend (2 ^ (contentDepth L + 1) + i >>> 8) (contentDepth L) := by
  obtain ⟨h1, h2⟩ := contentDepth_bound L i hL hi
  have h3 : i >>> 8 < 2 ^ (contentDepth L + 1) := by rw [pow_succ]; omega
  simp only [BitListView.GetNode, listView, ToGindex64_ok _ _ h2 h3,
    Getter_content _ _ _ _ h2 h1]

theorem CheckIndex_listView (L : Nat) (c : Node) (n i : Nat) (hn : n ≤ L) (hL : L < 2 ^ 64) :
    (listView L c n).CheckIndex i = if i ≥ n then some .index else none := by
  unfold BitListView.CheckIndex
  rw [Length_listView L c n hn hL]
  by_cases h : i ≥ n
  · simp only [h, if_true]
  · have h2 : ¬ i ≥ (listView L c n).td.BitLimit := by
      simp only [listView, BitlistType]; omega
    simp only [h, h2, if_false]

theorem Set_listView_out_of_range [ZeroHash] (L : Nat) (c : Node) (n i : Nat) (b : Bool) (hn : n ≤ L)
    (hL : L < 2 ^ 64) (hi : n ≤ i) :
    (listView L c n).Set i b = (listView L c n, some .index) := by
  have hck := CheckIndex_listView L c n i hn hL
  rw [if_pos hi] at hck
  unfold BitListView.Set
  rw [hck]

theorem Get_listView (L : Nat) (c : Node) (n i : Nat) (hL : L + 255 < 2 ^ 64)
    (hi : i < n) (hn : n ≤ L) (r : Root)
    (hr : c.descend (2 ^ (contentDepth L + 1) + i >>> 8) (contentDepth L) = .ok (.chunk r)) :
    (listView L c n).Get i = BoolMeta.BoolViewFromBitfieldBacking r (i % 256) := by
  have hck := CheckIndex_listView L c n i hn (by omega)
  rw [if_neg (by omega)] at hck
  unfold BitListView.Get
  rw [hck]
  simp only [BitListView.subviewNode, GetNode_listView L c n i hL (by omega), hr]

theorem Append_at_limit [ZeroHash] (tv : BitListView) (b : Bool) (ll : Nat) (h : tv.Length = .ok ll)
    (hl : ll ≥ tv.td.BitLimit) : tv.Append b = (tv, some .limitExceeded) := by
  unfold BitListView.Append
  rw [h]
  simp only [hl, if_true]

theorem Pop_empty [ZeroHash] (tv : BitListView) (h : tv.Length = .ok 0) :
    tv.Pop = (tv, some .emptyList) := by
  unfold BitListView.Pop
  rw [h]
  simp only [if_true]

theorem lengthChunk_zero : lengthChunk 0 = Root.zero := by decide

/-! ## Reading a bit back -/

/-- Whatever the view, `Get` returns an error at every index whose position in
its chunk, `uint8(i)`, is above 32: the test `i > 32` of
`BoolViewFromBitfieldBacking` rejects it. -/
theorem Get_error_of_subIndex (tv : BitListView) (i : Nat) (h : 32 < i % 256) :
    ∃ e, tv.Get i = .error e := by
  unfold BitListView.Get
  cases tv.CheckIndex i with
  | some e => exact ⟨e, rfl⟩
  | none =>
    simp only [BitListView.subviewNode]
    cases tv.GetNode (i >>> 8) with
    | error e => exact ⟨e, rfl⟩
    | ok v =>
      cases v with
      | pair l r => exact ⟨_, rfl⟩
      | chunk r =>
        simp only [BoolMeta.BoolViewFromBitfieldBacking, h, if_true]
        exact ⟨_, rfl⟩

set_option maxRecDepth 100000 in
/-- C3, at its failing input: on the list of limit 64 holding 34 bits,
`Set(33, false)` succeeds and the following `Get(33)` returns an error (while
`Get(32)` still reads the bit appended there). -/
theorem get_after_set_fails :
    ((defaultList 64).run (List.replicate 34 (.append true))).Length = .ok 34 ∧
    (((defaultList 64).run (List.replicate 34 (.append true))).Set 33 false).2 = none ∧
    (((defaultList 64).run (List.replicate 34 (.append true))).Set 33 false).1.Get 33
      = .error .bitRange ∧
    (((defaultList 64).run (List.replicate 34 (.append true))).Set 33 false).1.Get 32
      = .ok true := by
  decide

/-- Scenario A of the spec: a bit list of limit 16 starts with length 0; after
four `Append(true)`, `Get(2)` returns true and `Length()` is 4. -/
theorem scenario_A :
    (defaultList 16).Length = .ok 0 ∧
    ((defaultList 16).run (List.replicate 4 (.append true))).Get 2 = .ok true ∧
    ((defaultList 16).run (List.replicate 4 (.append true))).Length = .ok 4 := by
  decide

set_option maxRecDepth 100000 in
/-- C4, at its failing input: after 34 successful `Append(true)` on the default
list of limit 64 the length is 34, `Get(j)` returns the appended bit for
`j = 0` and `j = 32`, and `Get(33)` returns an error. -/
theorem append_then_read_fails :
    ((defaultList 64).run (List.replicate 33 (.append true))).Length = .ok 33 ∧
    (((defaultList 64).run (List.replicate 33 (.append true))).Append true).2 = none ∧
    ((defaultList 64).run (List.replicate 34 (.append true))).Length = .ok 34 ∧
    ((defaultList 64).run (List.replicate 34 (.append true))).Get 0 = .ok true ∧
    ((defaultList 64).run (List.replicate 34 (.append true))).Get 32 = .ok true ∧
    ((defaultList 64).run (List.replicate 34 (.append true))).Get 33 = .error .bitRange := by
  decide

/-! ## A limit at which `BitLimit + 0xff` wraps -/

theorem BitListView.run_append [ZeroHash] (tv : BitListView) (a b : List Op) :
    tv.run (a ++ b) = (tv.run a).run b := by
  simp only [BitListView.run, List.foldl_append]

theorem BitListView.eq_of_fields (a b : BitListView) (h1 : a.td = b.td)
    (h2 : a.Hook.isNone = true) (h3 : b.Hook.isNone = true)
    (h4 : a.BackingNode = b.BackingNode) (h5 : a.depth = b.depth) : a = b := by
  obtain ⟨atd, ah, an, ad⟩ := a
  obtain ⟨btd, bh, bn, bd⟩ := b
  simp only at h1 h4 h5
  subst h1 h4 h5
  cases ah with
  | some x => simp at h2
  | none =>
    cases bh with
    | some x => simp at h3
    | none => rfl

theorem wrap_start :
    defaultList wrapLimit = listView wrapLimit (.chunk (onesChunk 0)) 0 := by
  apply BitListView.eq_of_fields <;> decide

set_option maxRecDepth 100000 in
theorem wrap_fill (k : Nat) (hk : k = 0 ∨ k = 64 ∨ k = 128 ∨ k = 192) :
    (listView wrapLimit (.chunk (onesChunk k)) k).run (List.replicate 64 (.append true))
      = listView wrapLimit (.chunk (onesChunk (k + 64))) (k + 64) := by
  rcases hk with rfl | rfl | rfl | rfl <;> apply BitListView.eq_of_fields <;> decide

set_option maxRecDepth 100000 in
theorem wrap_tail :
    (listView wrapLimit (.chunk (onesChunk 256)) 256).run
        (List.replicate 10 (.append true) ++ [.set 265 true])
      = listView wrapLimit (.chunk (onesChunk 256)) 778 := by
  apply BitListView.eq_of_fields <;> decide

set_option maxRecDepth 100000 in
/-- The view after `wrapOps`: the content chunk is full and the length chunk
reads 778, although 266 bits were appended. -/
theorem run_wrapOps :
    (defaultList wrapLimit).run wrapOps = listView wrapLimit (.chunk (onesChunk 256)) 778 := by
  have e : wrapOps = List.replicate 64 (.append true) ++ (List.replicate 64 (.append true) ++
      (List.replicate 64 (.append true) ++ (List.replicate 64 (.append true) ++
        (List.replicate 10 (.append true) ++ [.set 265 true])))) := by
    decide
  rw [e, BitListView.run_append, BitListView.run_append, BitListView.run_append,
    BitListView.run_append, wrap_start, wrap_fill 0 (by decide), wrap_fill 64 (by decide),
    wrap_fill 128 (by decide), wrap_fill 192 (by decide), wrap_tail]

/-! ## Reading a written bit back -/

set_option maxRecDepth 1000000 in
/-- Setting (`|=`) or clearing (`&^=`) bit `j` of a byte and reading bit `j`
back, for each of the 256 bytes and 8 bit positions. -/
theorem bit_write_read : ∀ p, p < 256 → ∀ j, j < 8 →
    (((p ||| (1 <<< j)) % 256) >>> j) &&& 1 = 1 ∧
    (((p &&& (255 ^^^ (1 <<< j))) % 256) >>> j) &&& 1 = 0 := by
  decide

theorem BoolViewFromBitfieldBacking_write (b : Bool) (r : Root) (k : Nat) (hk : k < 256) :
    BoolMeta.BoolViewFromBitfieldBacking (BoolView.BackingFromBitfieldBase b r k) k
      = if k > 32 then .error .bitRange else .ok b := by
  unfold BoolMeta.BoolViewFromBitfieldBacking
  by_cases h : k > 32
  · simp only [h, if_true]
  · simp only [h, if_false]
    have h3 : k >>> 3 < 32 := by rw [Nat.shiftRight_eq_div_pow]; omega
    have h7 : k &&& 7 < 8 := by
      have := Nat.and_pow_two_sub_one_eq_mod k 3
      simp only [Nat.reducePow, Nat.add_one_sub_one] at this
      rw [this]; omega
    obtain ⟨h1, h0⟩ := bit_write_read (r.get (k >>> 3)) (Root.get_lt _ _) (k &&& 7) h7
    cases b with
    | true =>
      simp only [BoolView.BackingFromBitfieldBase, if_true, Root.get_set_same _ _ _ h3, h1]
      rfl
    | false =>
      have e : BoolView.BackingFromBitfieldBase false r k
          = r.set (k >>> 3) (r.get (k >>> 3) &&& (255 ^^^ (1 <<< (k &&& 7)))) := rfl
      rw [e, Root.get_set_same _ _ _ h3, h0]
      rfl

/-! ## Bits of a chunk -/

theorem shiftRight3_lt (i : Nat) (hi : i < 256) : i >>> 3 < 32 := by
  rw [Nat.shiftRight_eq_div_pow]; omega

theorem and7_lt (i : Nat) : i &&& 7 < 8 := by
  have := Nat.and_pow_two_sub_one_eq_mod i 3
  simp only [Nat.reducePow, Nat.add_one_sub_one] at this
  rw [this]; omega

theorem bit_index_eq (i k : Nat) (h1 : i >>> 3 = k >>> 3) (h2 : i &&& 7 = k &&& 7) : i = k := by
  have a := Nat.and_pow_two_sub_one_eq_mod i 3
  have b := Nat.and_pow_two_sub_one_eq_mod k 3
  simp only [Nat.reducePow, Nat.add_one_sub_one] at a b
  rw [a, b] at h2
  rw [Nat.shiftRight_eq_div_pow, Nat.shiftRight_eq_div_pow] at h1
  omega

theorem readBit_eq_testBit (x j : Nat) : (((x >>> j) &&& 1) == 1) = x.testBit j := by
  rw [Nat.testBit_to_div_mod, Nat.and_one_is_mod, Nat.shiftRight_eq_div_pow]
  by_cases h : x / 2 ^ j % 2 = 1 <;> simp [h]

theorem testBit_setBit (p j k : Nat) (hj : j < 8) (hk : k < 8) :
    ((p ||| (1 <<< j)) % 256).testBit k = if k = j then true else p.testBit k := by
  have e : (256 : Nat) = 2 ^ 8 := by decide
  rw [e, Nat.testBit_mod_two_pow, Nat.testBit_or, Nat.one_shiftLeft, Nat.testBit_two_pow]
  by_cases h : k = j
  · subst h; simp [hk]
  · have h2 : ¬ j = k := fun x => h x.symm
    simp [h, h2, hk]

theorem testBit_clearBit (p j k : Nat) (hj : j < 8) (hk : k < 8) :
    ((p &&& (255 ^^^ (1 <<< j))) % 256).testBit k = if k = j then false else p.testBit k := by
  have e : (256 : Nat) = 2 ^ 8 := by decide
  have e2 : (255 : Nat) = 2 ^ 8 - 1 := by decide
  rw [e, Nat.testBit_mod_two_pow, Nat.testBit_and, Nat.testBit_xor, e2,
    Nat.testBit_two_pow_sub_one, Nat.one_shiftLeft, Nat.testBit_two_pow]
  by_cases h : k = j
  · subst h; simp [hk]
  · have h2 : ¬ j = k := fun x => h x.symm
    simp [h, h2, hk]

theorem BoolViewFromBitfieldBacking_low (r : Root) (i : Nat) (hi : i ≤ 32) :
    BoolMeta.BoolViewFromBitfieldBacking r i = .ok (r.bit i) := by
  have h : ¬ i > 32 := by omega
  simp only [BoolMeta.BoolViewFromBitfieldBacking, h, if_false, readBit_eq_testBit, Root.bit]

/-- C11, at its failing input: whatever the chunk, `BoolViewFromBitfieldBacking`
returns an error at the bit indices 33 and 255, although bit 33 of the sample
chunk (bit 1 of byte 4) is clear and nothing is out of range; at the indices 0
and 32 it returns the bit. -/
theorem bit_read_rejects (r : Root) :
    BoolMeta.BoolViewFromBitfieldBacking r 33 = .error .bitRange ∧
    BoolMeta.BoolViewFromBitfieldBacking r 255 = .error .bitRange ∧
    BoolMeta.BoolViewFromBitfieldBacking r 0 = .ok (r.bit 0) ∧
    BoolMeta.BoolViewFromBitfieldBacking r 32 = .ok (r.bit 32) :=
  ⟨rfl, rfl, BoolViewFromBitfieldBacking_low r 0 (by decide),
    BoolViewFromBitfieldBacking_low r 32 (by decide)⟩

/-- Where C11 holds and where it does not: at an in-chunk bit index up to 32
the bit is returned, above 32 an error. -/
theorem BoolViewFromBitfieldBacking_eq (r : Root) (i : Nat) :
    BoolMeta.BoolViewFromBitfieldBacking r i
      = if i > 32 then .error .bitRange else .ok (r.bit i) := by
  by_cases h : i > 32
  · simp only [BoolMeta.BoolViewFromBitfieldBacking, h, if_true]
  · rw [if_neg h]; exact BoolViewFromBitfieldBacking_low r i (by omega)

/-- The bits of the chunk `BackingFromBitfieldBase` returns: bit `i` is `b`, the
others are those of the base. -/
theorem BackingFromBitfieldBase_bit (b : Bool) (base : Root) (i k : Nat) (hi : i < 256) :
    (BoolView.BackingFromBitfieldBase b base i).bit k = if k = i then b else base.bit k := by
  have hi3 := shiftRight3_lt i hi
  have hi7 := and7_lt i
  have hk7 := and7_lt k
  unfold Root.bit
  by_cases hbyte : k >>> 3 = i >>> 3
  · rw [hbyte]
    cases b with
    | true =>
      have e : BoolView.BackingFromBitfieldBase true base i
          = base.set (i >>> 3) (base.get (i >>> 3) ||| (1 <<< (i &&& 7))) := rfl
      rw [e, Root.get_set_same _ _ _ hi3, testBit_setBit _ _ _ hi7 hk7]
      by_cases hbit : k &&& 7 = i &&& 7
      · have := bit_index_eq k i hbyte hbit
        simp [hbit, this]
      · have hne : k ≠ i := fun x => hbit (by rw [x])
        simp [hbit, hne]
    | false =>
      have e : BoolView.BackingFromBitfieldBase false base i
          = base.set (i >>> 3) (base.get (i >>> 3) &&& (255 ^^^ (1 <<< (i &&& 7)))) := rfl
      rw [e, Root.get_set_same _ _ _ hi3, testBit_clearBit _ _ _ hi7 hk7]
      by_cases hbit : k &&& 7 = i &&& 7
      · have := bit_index_eq k i hbyte hbit
        simp [hbit, this]
      · have hne : k ≠ i := fun x => hbit (by rw [x])
        simp [hbit, hne]
  · have hne : k ≠ i := fun x => hbyte (by rw [x])
    rw [if_neg hne]
    have hb2 : i >>> 3 ≠ k >>> 3 := fun x => hbyte x.symm
    cases b with
    | true =>
      have e : BoolView.BackingFromBitfieldBase true base i
          = base.set (i >>> 3) (base.get (i >>> 3) ||| (1 <<< (i &&& 7))) := rfl
      rw [e, Root.get_set_ne _ _ _ _ hb2]
    | false =>
      have e : BoolView.BackingFromBitfieldBase false base i
          = base.set (i >>> 3) (base.get (i >>> 3) &&& (255 ^^^ (1 <<< (i &&& 7)))) := rfl
      rw [e, Root.get_set_ne _ _ _ _ hb2]

/-- C16 (bit write within a chunk): for an in-chunk bit index `i`,
`BackingFromBitfieldBase` returns a chunk whose bit `i` (bit `i & 7` of byte
`i >> 3`) is `b` and whose every other bit `k` is that of the base. -/
theorem bit_write_frame (b : Bool) (base : Root) (i : Nat) (hi : i < 256) :
    (BoolView.BackingFromBitfieldBase b base i).bit i = b ∧
    ∀ k, k ≠ i → (BoolView.BackingFromBitfieldBase b base i).bit k = base.bit k := by
  constructor
  · rw [BackingFromBitfieldBase_bit b base i i hi, if_pos rfl]
  · intro k hk
    rw [BackingFromBitfieldBase_bit b base i k hi, if_neg hk]

theorem bit_write_frame_witness :
    (BoolView.BackingFromBitfieldBase true Root.sample 200).bit 200 = true ∧
    (BoolView.BackingFromBitfieldBase true Root.sample 200).bit 201 = Root.sample.bit 201 ∧
    (BoolView.BackingFromBitfieldBase false Root.sample 7).bit 0 = Root.sample.bit 0 :=
  ⟨(bit_write_frame true Root.sample 200 (by decide)).1,
   (bit_write_frame true Root.sample 200 (by decide)).2 201 (by decide),
   (bit_write_frame false Root.sample 7 (by decide)).2 0 (by decide)⟩

/-! ## Slot bounds of the scalar views -/

/-- C12 (slot bounds): for each scalar kind of width `w`, `BackingFromBase`
returns no chunk exactly when the slot is `32 / w` or more, and
`UintMeta(w).SubViewFromBacking` returns an error exactly then (and a view
otherwise). -/
theorem slot_bounds (v : Nat) (b : Bool) (base : Root) (i : Nat) :
    (Uint8View.BackingFromBase v base i = none ↔ i ≥ 32 / 1) ∧
    (Uint16View.BackingFromBase v base i = none ↔ i ≥ 32 / 2) ∧
    (Uint32View.BackingFromBase v base i = none ↔ i ≥ 32 / 4) ∧
    (Uint64View.BackingFromBase v base i = none ↔ i ≥ 32 / 8) ∧
    (BoolView.BackingFromBase b base i = none ↔ i ≥ 32 / 1) ∧
    ((UintMeta.SubViewFromBacking Uint8Type base i).isError = true ↔ i ≥ 32 / 1) ∧
    ((UintMeta.SubViewFromBacking Uint16Type base i).isError = true ↔ i ≥ 32 / 2) ∧
    ((UintMeta.SubViewFromBacking Uint32Type base i).isError = true ↔ i ≥ 32 / 4) ∧
    ((UintMeta.SubViewFromBacking Uint64Type base i).isError = true ↔ i ≥ 32 / 8) := by
  refine ⟨?_, ?_, ?_, ?_, ?_, ?_, ?_, ?_, ?_⟩
  · by_cases h : i < 32
    · rw [backing_uint8 v base i h]; simp; omega
    · have h2 : i ≥ 32 := by omega
      simp only [Uint8View.BackingFromBase, h2, if_true, true_iff]
  · by_cases h : i < 16
    · rw [backing_uint16 v base i h]; simp; omega
    · have h2 : i ≥ 16 := by omega
      simp only [Uint16View.BackingFromBase, h2, if_true, true_iff]
  · by_cases h : i < 8
    · rw [backing_uint32 v base i h]; simp; omega
    · have h2 : i ≥ 8 := by omega
      simp only [Uint32View.BackingFromBase, h2, if_true, true_iff]
  · by_cases h : i < 4
    · rw [backing_uint64 v base i h]; simp; omega
    · have h2 : i ≥ 4 := by omega
      simp only [Uint64View.BackingFromBase, h2, if_true, true_iff]
  · by_cases h : i < 32
    · rw [backing_bool b base i h]; simp; omega
    · have h2 : i ≥ 32 := by omega
      simp only [BoolView.BackingFromBase, h2, if_true, true_iff]
  · by_cases h : i < 32
    · rw [subView_uint8 base i h]; simp [Res.isError]; omega
    · have h2 : i ≥ 32 / Uint8Type := by simp [Uint8Type]; omega
      have h0 : ¬ Uint8Type = 0 := by decide
      simp only [UintMeta.SubViewFromBacking, h0, h2, if_true, if_false, Res.isError, true_iff]
      omega
  · by_cases h : i < 16
    · rw [subView_uint16 base i h]; simp [Res.isError]; omega
    · have h2 : i ≥ 32 / Uint16Type := by simp [Uint16Type]; omega
      have h0 : ¬ Uint16Type = 0 := by decide
      simp only [UintMeta.SubViewFromBacking, h0, h2, if_true, if_false, Res.isError, true_iff]
      omega
  · by_cases h : i < 8
    · rw [subView_uint32 base i h]; simp [Res.isError]; omega
    · have h2 : i ≥ 32 / Uint32Type := by simp [Uint32Type]; omega
      have h0 : ¬ Uint32Type = 0 := by decide
      simp only [UintMeta.SubViewFromBacking, h0, h2, if_true, if_false, Res.isError, true_iff]
      omega
  · by_cases h : i < 4
    · rw [subView_uint64 base i h]; simp [Res.isError]; omega
    · have h2 : i ≥ 32 / Uint64Type := by simp [Uint64Type]; omega
      have h0 : ¬ Uint64Type = 0 := by decide
      simp only [UintMeta.SubViewFromBacking, h0, h2, if_true, if_false, Res.isError, true_iff]
      omega

/-! ## A corrupt length -/

theorem Length_of_pair (tv : BitListView) (l : Node) (c : Root)
    (hb : tv.BackingNode = .pair l (.chunk c)) :
    tv.Length = if getLE c 0 8 > tv.td.BitLimit then .error .corruptLength
      else .ok (getLE c 0 8) := by
  simp only [BitListView.Length, hb, Node.Getter_right]

/-- C13 (corrupt length is detected before any bit is touched): for a view
whose backing is a pair with a chunk as right child, with `n` the little-endian
number in the first 8 bytes of that chunk, `Length()` returns `n` when `n` is
within the limit; when it is not, `Length()`, `Get`, `Set`, `Append` and `Pop`
all fail and the view is left as it was. -/
theorem corrupt_length_detected [ZeroHash] (tv : BitListView) (l : Node) (c : Root)
    (hb : tv.BackingNode = .pair l (.chunk c)) :
    (getLE c 0 8 ≤ tv.td.BitLimit → tv.Length = .ok (getLE c 0 8)) ∧
    (getLE c 0 8 > tv.td.BitLimit →
      tv.Length = .error .corruptLength ∧
      (∀ i, tv.Get i = .error .corruptLength) ∧
      (∀ i b, tv.Set i b = (tv, some .corruptLength)) ∧
      (∀ b, tv.Append b = (tv, some .corruptLength)) ∧
      tv.Pop = (tv, some .corruptLength)) := by
  have hlen := Length_of_pair tv l c hb
  constructor
  · intro h
    rw [hlen, if_neg (by omega)]
  · intro h
    rw [if_pos h] at hlen
    have hck : ∀ i, tv.CheckIndex i = some .corruptLength := by
      intro i
      simp only [BitListView.CheckIndex, hlen]
    refine ⟨hlen, ?_, ?_, ?_, ?_⟩
    · intro i
      simp only [BitListView.Get, hck]
    · intro i b
      simp only [BitListView.Set, hck]
    · intro b
      simp only [BitListView.Append, hlen]
    · simp only [BitListView.Pop, hlen]

theorem corrupt_length_detected_witness :
    (listView 16 (.chunk (ZeroHashes 0)) 16).Length = .ok 16 ∧
    (listView 16 (.chunk (ZeroHashes 0)) 17).Length = .error .corruptLength ∧
    (∀ i, (listView 16 (.chunk (ZeroHashes 0)) 17).Get i = .error .corruptLength) ∧
    (∀ i b, (listView 16 (.chunk (ZeroHashes 0)) 17).Set i b
      = (listView 16 (.chunk (ZeroHashes 0)) 17, some .corruptLength)) ∧
    (∀ b, (listView 16 (.chunk (ZeroHashes 0)) 17).Append b
      = (listView 16 (.chunk (ZeroHashes 0)) 17, some .corruptLength)) ∧
    (listView 16 (.chunk (ZeroHashes 0)) 17).Pop
      = (listView 16 (.chunk (ZeroHashes 0)) 17, some .corruptLength) :=
  ⟨(corrupt_length_detected (listView 16 (.chunk (ZeroHashes 0)) 16) _ _ rfl).1 (by decide),
   (corrupt_length_detected (listView 16 (.chunk (ZeroHashes 0)) 17) _ _ rfl).2 (by decide)⟩

/-! ## The wire format of an offset -/

/-- C14 (offset wire format round trip): when `prevOffset + elemLen` is below
2^32, `WriteOffset` writes exactly 4 bytes, the little-endian encoding of the
sum, and returns the sum; `ReadOffset` on a reader holding those 4 bytes
returns the same value and no error. -/
theorem offset_round_trip (w : List Nat) (prevOffset elemLen : Nat)
    (h : prevOffset + elemLen < 2 ^ 32) :
    ∃ tmp, WriteOffset w prevOffset elemLen = (w ++ tmp, .ok (prevOffset + elemLen)) ∧
      tmp.length = OffsetByteLength ∧
      (∀ k, k < 4 → tmp.getD k 0 = ((prevOffset + elemLen) / 256 ^ k) % 256) ∧
      ReadOffset tmp = ((prevOffset + elemLen, none), []) := by
  refine ⟨putUint32 (prevOffset + elemLen), WriteOffset_ok w _ _ h, rfl, ?_, ?_⟩
  · intro k hk
    interval_cases k <;> simp [putUint32]
  · simp only [ReadOffset]
    have e : (putUint32 (prevOffset + elemLen)).take 4 = putUint32 (prevOffset + elemLen) := rfl
    rw [e, uint32LE_putUint32 _ h]
    rfl

theorem offset_round_trip_witness :
    ∃ tmp, WriteOffset [] 8 5 = ([] ++ tmp, .ok (8 + 5)) ∧
      tmp.length = OffsetByteLength ∧
      (∀ k, k < 4 → tmp.getD k 0 = ((8 + 5) / 256 ^ k) % 256) ∧
      ReadOffset tmp = ((8 + 5, none), []) :=
  offset_round_trip [] 8 5 (by decide)

/-! ## The serialized size of a bit list -/

theorem Length_le_limit (tv : BitListView) (n : Nat) (h : tv.Length = .ok n) :
    n ≤ tv.td.BitLimit := by
  unfold BitListView.Length at h
  split at h
  · cases h
  · cases h
  · simp only at h
    split at h
    · cases h
    · injection h with h
      omega

/-- C18, as amended: for a limit with `limit + 8 < 2^64` and a view of that
type with a valid length `n`, `ValueByteLength()` is `n / 8 + 1` and lies
between `MinSize` and `MaxSize`, so that `checkScope` accepts it. -/
theorem value_byte_length_in_scope (limit n : Nat) (tv : BitListView)
    (hl : limit + 8 < 2 ^ 64) (htd : tv.td = BitlistType limit) (hlen : tv.Length = .ok n) :
    tv.ValueByteLength = .ok (n / 8 + 1) ∧
    tv.td.base.MinSize ≤ n / 8 + 1 ∧ n / 8 + 1 ≤ tv.td.base.MaxSize ∧
    tv.td.base.checkScope (n / 8 + 1) = none := by
  have hn := Length_le_limit tv n hlen
  rw [htd] at hn ⊢
  simp only [BitlistType] at hn
  have e1 : (n + 7 + 1) % 2 ^ 64 = n + 8 := Nat.mod_eq_of_lt (by omega)
  have e2 : (limit + 7 + 1) % 2 ^ 64 = limit + 8 := Nat.mod_eq_of_lt (by omega)
  have e3 : (n + 8) / 8 = n / 8 + 1 := by omega
  have e4 : (limit + 8) / 8 = limit / 8 + 1 := by omega
  have h1 : ¬ n / 8 + 1 < 1 := by omega
  have h2 : ¬ n / 8 + 1 > limit / 8 + 1 := by omega
  refine ⟨?_, ?_, ?_, ?_⟩
  · simp only [BitListView.ValueByteLength, hlen, e1, e3]
  · simp only [BitlistType]; omega
  · simp only [BitlistType, e2, e4]; omega
  · simp only [ComplexTypeBase.checkScope, BitlistType, e2, e4, h1, h2, if_false]

theorem value_byte_length_in_scope_witness :
    ((defaultList 16).run [.append true, .append true]).ValueByteLength = .ok (2 / 8 + 1) ∧
    ((defaultList 16).run [.append true, .append true]).td.base.MinSize ≤ 2 / 8 + 1 ∧
    2 / 8 + 1 ≤ ((defaultList 16).run [.append true, .append true]).td.base.MaxSize ∧
    ((defaultList 16).run [.append true, .append true]).td.base.checkScope (2 / 8 + 1) = none :=
  value_byte_length_in_scope 16 2 _ (by decide) (by decide) (by decide)

/-- C18, as stated, fails: for the limit `2^64 - 1` the sum `limit + 7 + 1`
wraps and `MaxSize` is 0, below `MinSize`; the empty list of that type has
`ValueByteLength() = 1` and `checkScope` rejects it. -/
theorem value_byte_length_out_of_scope :
    (defaultList 18446744073709551615).Length = .ok 0 ∧
    (defaultList 18446744073709551615).ValueByteLength = .ok 1 ∧
    (BitlistType 18446744073709551615).base.MaxSize = 0 ∧
    (BitlistType 18446744073709551615).base.MinSize = 1 ∧
    (BitlistType 18446744073709551615).base.checkScope 1 = some .scopeTooBig := by
  decide

/-! ## Unsupported widths, and the two boolean reads -/

/-- The widths other than 0, 1, 2, 4 and 8 are rejected with an error by both
`ViewFromBacking` and `SubViewFromBacking`, and so is the width 0 by
`ViewFromBacking`. -/
theorem unsupported_width_rejected (td : Nat) (node : Node) (r : Root) (i : Nat)
    (h1 : td ≠ 1) (h2 : td ≠ 2) (h4 : td ≠ 4) (h8 : td ≠ 8) :
    (UintMeta.ViewFromBacking td node).isError = true ∧
    (td ≠ 0 → (UintMeta.SubViewFromBacking td r i).isError = true) := by
  constructor
  · cases node with
    | pair l r => rfl
    | chunk v =>
      simp only [UintMeta.ViewFromBacking, Uint8Type, Uint16Type, Uint32Type, Uint64Type, h1, h2,
        h4, h8, if_false, Res.isError]
  · intro h0
    unfold UintMeta.SubViewFromBacking
    rw [if_neg h0]
    by_cases hi : i ≥ 32 / td
    · rw [if_pos hi]; rfl
    · simp only [hi, Uint8Type, Uint16Type, Uint32Type, Uint64Type, h1, h2, h4, h8, if_false,
        Res.isError]

/-- C19, at its failing input: for the width 0, `SubViewFromBacking` panics on
the division `32 / uint64(td)`, whatever the chunk and the slot, while
`ViewFromBacking` returns an error for the same width. -/
theorem zero_width_panics (r : Root) (i : Nat) :
    UintMeta.SubViewFromBacking 0 r i = .panic .divideByZero ∧
    (UintMeta.SubViewFromBacking 0 r i).isError = false ∧
    UintMeta.ViewFromBacking 0 (.chunk r) = .error .unsupported :=
  ⟨rfl, rfl, rfl⟩

/-- The two boolean reads agree on the chunks whose first byte is 0 or 1. -/
theorem bool_reads_agree_on_valid (c : Root) (h : c.get 0 ≤ 1) (b : Bool) :
    (BoolMeta.ViewFromBacking (.chunk c) = .ok (.bool b) ↔
      BoolMeta.SubViewFromBacking c 0 = some (.bool b)) := by
  have h1 : ¬ c.get 0 > 1 := by omega
  have h2 : ¬ (0 : Nat) ≥ 32 := by decide
  simp only [BoolMeta.ViewFromBacking, BoolMeta.SubViewFromBacking, h1, h2, if_false,
    Except.ok.injEq, Option.some.injEq, BasicView.bool.injEq]
  have : c.get 0 = 0 ∨ c.get 0 = 1 := by omega
  rcases this with e | e <;> simp [e]

/-- C20, at its failing input: for a chunk whose first byte is 2, the
standalone read `ViewFromBacking` yields `true` while the packed read
`SubViewFromBacking` of slot 0 rejects the chunk. -/
theorem bool_reads_disagree :
    Root.two.get 0 = 2 ∧
    BoolMeta.ViewFromBacking (.chunk Root.two) = .ok (.bool true) ∧
    BoolMeta.SubViewFromBacking Root.two 0 = none := by
  decide

/-! ## Iteration -/

theorem getLE_lt (n : Nat) : ∀ (r : Root) (off : Nat), getLE r off n < 256 ^ n := by
  induction n with
  | zero => intro r off; simp [getLE]
  | succ n ih =>
    intro r off
    have h1 := Root.get_lt r off
    have h2 := ih r (off + 1)
    rw [getLE, pow_succ]
    omega

theorem Length_lt (tv : BitListView) (n : Nat) (h : tv.Length = .ok n) : n < 2 ^ 64 := by
  unfold BitListView.Length at h
  split at h
  · cases h
  · cases h
  · rename_i c _
    simp only at h
    split at h
    · cases h
    · injection h with h
      have := getLE_lt 8 c 0
      omega

theorem Iter_after (tv : BitListView) (n : Nat) (h : tv.Length = .ok n) (k : Nat) :
    tv.Iter.after k = .fn tv n (min k n) := by
  have hn := Length_lt tv n h
  induction k with
  | zero => simp only [BitIter.after, BitListView.Iter, h, Nat.zero_min]
  | succ k ih =>
    rw [BitIter.after, ih]
    by_cases hk : k < n
    · have e1 : min k n = k := Nat.min_eq_left (by omega)
      have e2 : min (k + 1) n = k + 1 := Nat.min_eq_left (by omega)
      have e3 : (k + 1) % 2 ^ 64 = k + 1 := Nat.mod_eq_of_lt (by omega)
      rw [e1, e2]
      simp only [BitIter.Next, hk, if_true]
      cases tv.Get k <;> simp only [e3]
    · have e1 : min k n = n := Nat.min_eq_right (by omega)
      have e2 : min (k + 1) n = n := Nat.min_eq_right (by omega)
      rw [e1, e2]
      simp only [BitIter.Next, Nat.lt_irrefl, if_false]

/-- C15 (iteration length): on a view whose `Length()` is `n`, the `k`-th call
of `Next()` on the iterator of `Iter()` reports `ok = true` with the bit and the
error of `Get(k)` for `k < n`, and `ok = false` with no error for every later
call: `ok` is true exactly `n` times. -/
theorem iteration_follows_get (tv : BitListView) (n : Nat) (h : tv.Length = .ok n) (k : Nat) :
    (tv.Iter.after k).Next.1
      = if k < n then nextOfGet (tv.Get k) else (false, false, none) := by
  rw [Iter_after tv n h k]
  by_cases hk : k < n
  · have e1 : min k n = k := Nat.min_eq_left (by omega)
    rw [e1, if_pos hk]
    simp only [BitIter.Next, hk, if_true]
    cases tv.Get k <;> rfl
  · have e1 : min k n = n := Nat.min_eq_right (by omega)
    rw [e1, if_neg hk]
    simp only [BitIter.Next, Nat.lt_irrefl, if_false]

theorem iteration_follows_get_witness :
    ((defaultList 16).run [.append true, .append false]).Iter.Next.1 = (true, true, none) ∧
    (((defaultList 16).run [.append true, .append false]).Iter.after 1).Next.1
      = (false, true, none) ∧
    (((defaultList 16).run [.append true, .append false]).Iter.after 2).Next.1
      = (false, false, none) ∧
    (((defaultList 16).run [.append true, .append false]).Iter.after 5).Next.1
      = (false, false, none) :=
  ⟨iteration_follows_get _ 2 (by decide) 0, iteration_follows_get _ 2 (by decide) 1,
   iteration_follows_get _ 2 (by decide) 2, iteration_follows_get _ 2 (by decide) 5⟩

/-! ## Digits of a generalized index -/

theorem mod_two_pow_succ_ne (g g2 d : Nat) (hb : g.testBit d = g2.testBit d)
    (h : g % 2 ^ (d + 1) ≠ g2 % 2 ^ (d + 1)) : g % 2 ^ d ≠ g2 % 2 ^ d := by
  intro e
  apply h
  rw [Nat.mod_pow_succ, Nat.mod_pow_succ, e]
  rw [Nat.testBit_to_div_mod, Nat.testBit_to_div_mod] at hb
  have h1 := Nat.mod_two_eq_zero_or_one (g / 2 ^ d)
  have h2 := Nat.mod_two_eq_zero_or_one (g2 / 2 ^ d)
  rcases h1 with a | a <;> rcases h2 with b | b <;> simp [a, b] at hb ⊢

theorem content_index_mod (d k : Nat) (hk : k < 2 ^ d) : (2 ^ (d + 1) + k) % 2 ^ d = k := by
  rw [pow_succ, Nat.add_comm, Nat.add_mul_mod_self_left, Nat.mod_eq_of_lt hk]

theorem content_index_ne (d k k2 : Nat) (hk : k < 2 ^ d) (hk2 : k2 < 2 ^ d) (h : k ≠ k2) :
    (2 ^ (d + 1) + k) % 2 ^ d ≠ (2 ^ (d + 1) + k2) % 2 ^ d := by
  rw [content_index_mod d k hk, content_index_mod d k2 hk2]
  exact h

/-! ## Bits of a chunk, extensionally -/

theorem Root.zero_get (i : Nat) : Root.zero.get i = 0 := by
  simp only [Root.get, Root.zero, List.getD_eq_getElem?_getD]
  cases h : (List.replicate 32 0)[i]? with
  | none => rfl
  | some x =>
    have := List.getElem?_mem h
    rw [List.eq_of_mem_replicate this]
    rfl

theorem Root.zero_bit (k : Nat) : Root.zero.bit k = false := by
  simp only [Root.bit, Root.zero_get, Nat.zero_testBit]

theorem Root.ext_bit {r s : Root} (h : ∀ k, k < 256 → r.bit k = s.bit k) : r = s := by
  apply Root.ext_get
  intro i hi
  apply Nat.eq_of_testBit_eq
  intro j
  by_cases hj : j < 8
  · have h1 := h (8 * i + j) (by omega)
    have e1 : (8 * i + j) >>> 3 = i := by rw [Nat.shiftRight_eq_div_pow]; omega
    have e2 : (8 * i + j) &&& 7 = j := by
      have := Nat.and_pow_two_sub_one_eq_mod (8 * i + j) 3
      simp only [Nat.reducePow, Nat.add_one_sub_one] at this
      rw [this]; omega
    simp only [Root.bit, e1, e2] at h1
    exact h1
  · have hr : r.get i < 2 ^ j := by
      have := Root.get_lt r i
      have : 2 ^ 8 ≤ 2 ^ j := Nat.pow_le_pow_right (by decide) (by omega)
      omega
    have hs : s.get i < 2 ^ j := by
      have := Root.get_lt s i
      have : 2 ^ 8 ≤ 2 ^ j := Nat.pow_le_pow_right (by decide) (by omega)
      omega
    rw [Nat.testBit_lt_two_pow hr, Nat.testBit_lt_two_pow hs]

theorem and_0xff (n : Nat) : n &&& 0xff = n % 256 := by
  have := Nat.and_pow_two_sub_one_eq_mod n 8
  simp only [Nat.reducePow, Nat.add_one_sub_one] at this
  exact this

/-- Clearing a bit that was set in a chunk where it was clear gives the chunk
back. -/
theorem clear_after_write (b : Bool) (r : Root) (i : Nat) (hi : i < 256)
    (h : r.bit i = false) :
    BoolView.BackingFromBitfieldBase false (BoolView.BackingFromBitfieldBase b r i) i = r := by
  apply Root.ext_bit
  intro k _
  rw [BackingFromBitfieldBase_bit false _ i k hi, BackingFromBitfieldBase_bit b r i k hi]
  by_cases hk : k = i
  · rw [if_pos hk, hk, h]
  · rw [if_neg hk, if_neg hk]

/-! ## Updates of a content subtree -/

theorem mod_two_pow_succ_eq (g g2 d : Nat) (h : g % 2 ^ (d + 1) = g2 % 2 ^ (d + 1)) :
    g.testBit d = g2.testBit d ∧ g % 2 ^ d = g2 % 2 ^ d := by
  constructor
  · have h1 := Nat.testBit_mod_two_pow g (d + 1) d
    have h2 := Nat.testBit_mod_two_pow g2 (d + 1) d
    simp only [Nat.lt_succ_self, decide_True, Bool.true_and] at h1 h2
    rw [← h1, ← h2, h]
  · have hd : 2 ^ d ∣ 2 ^ (d + 1) := ⟨2, by rw [pow_succ]⟩
    rw [← Nat.mod_mod_of_dvd g hd, ← Nat.mod_mod_of_dvd g2 hd, h]

theorem mod_two_pow_succ_of (g g2 d : Nat) (hb : g.testBit d = g2.testBit d)
    (h : g % 2 ^ d = g2 % 2 ^ d) : g % 2 ^ (d + 1) = g2 % 2 ^ (d + 1) := by
  by_contra hne
  exact mod_two_pow_succ_ne g g2 d hb hne h

theorem Node.descend_zero (t : Node) (g : Nat) : t.descend g 0 = .ok t := by
  cases t <;> rfl

theorem Node.rebind_chunk [ZeroHash] (c : Root) (g d : Nat) :
    (Node.chunk c).rebind g true (d + 1)
      = (Node.pair (.chunk (ZeroHashes d)) (.chunk (ZeroHashes d))).rebind g true (d + 1) := by
  simp only [Node.rebind, if_true]

theorem Node.rebind_right [ZeroHash] (d : Nat) (l r : Node) (g : Nat) (e : Bool) (f1 : Link)
    (hb : g.testBit d = true) (h : r.rebind g e d = .ok f1) :
    (Node.pair l r).rebind g e (d + 1) = .ok (fun v => .pair l (f1 v)) := by
  simp only [Node.rebind, hb, if_true, h]

theorem Node.rebind_left [ZeroHash] (d : Nat) (l r : Node) (g : Nat) (e : Bool) (f1 : Link)
    (hb : g.testBit d = false) (h : l.rebind g e d = .ok f1) :
    (Node.pair l r).rebind g e (d + 1) = .ok (fun v => .pair (f1 v) r) := by
  simp only [Node.rebind, hb, h]
  rfl

theorem Node.rebind_pair [ZeroHash] (d : Nat) (l r : Node) (g : Nat) (e : Bool) (f : Link)
    (h : (Node.pair l r).rebind g e (d + 1) = .ok f) :
    (g.testBit d = true ∧ ∃ f1, r.rebind g e d = .ok f1 ∧ f = fun v => .pair l (f1 v)) ∨
    (g.testBit d = false ∧ ∃ f1, l.rebind g e d = .ok f1 ∧ f = fun v => .pair (f1 v) r) := by
  by_cases hb : g.testBit d = true
  · left
    cases hr : r.rebind g e d with
    | error x =>
      simp only [Node.rebind, hb, if_true, hr] at h
      cases h
    | ok f1 =>
      rw [Node.rebind_right d l r g e f1 hb hr] at h
      exact ⟨hb, f1, rfl, (Except.ok.inj h).symm⟩
  · right
    have hb2 : g.testBit d = false := by simpa using hb
    cases hr : l.rebind g e d with
    | error x =>
      simp only [Node.rebind, hb2, hr] at h
      cases h
    | ok f1 =>
      rw [Node.rebind_left d l r g e f1 hb2 hr] at h
      exact ⟨hb2, f1, rfl, (Except.ok.inj h).symm⟩

/-- One step of an update: the node is a pair, or a chunk that the update
replaces by a pair of two placeholders, and the update goes on in one child. -/
theorem Node.rebind_succ [ZeroHash] (d : Nat) (t : Node) (g : Nat) (e : Bool) (f : Link)
    (h : t.rebind g e (d + 1) = .ok f) :
    ∃ l r, (t = .pair l r ∨
        ((∃ c, t = .chunk c) ∧ e = true ∧ l = .chunk (ZeroHashes d) ∧ r = .chunk (ZeroHashes d))) ∧
      ((g.testBit d = true ∧ ∃ f1, r.rebind g e d = .ok f1 ∧ f = fun v => .pair l (f1 v)) ∨
       (g.testBit d = false ∧ ∃ f1, l.rebind g e d = .ok f1 ∧ f = fun v => .pair (f1 v) r)) := by
  cases t with
  | pair l r => exact ⟨l, r, Or.inl rfl, Node.rebind_pair d l r g e f h⟩
  | chunk c =>
    cases e with
    | false =>
      simp only [Node.rebind] at h
      cases h
    | true =>
      rw [Node.rebind_chunk] at h
      exact ⟨_, _, Or.inr ⟨⟨c, rfl⟩, rfl, rfl, rfl⟩, Node.rebind_pair d _ _ g true f h⟩

/-- An expanding update never fails. -/
theorem Node.rebind_expand [ZeroHash] (d : Nat) : ∀ (t : Node) (g : Nat),
    ∃ f, t.rebind g true d = .ok f := by
  induction d with
  | zero => intro t g; exact ⟨_, Node.rebind_zero t g true⟩
  | succ d ih =>
    have hp : ∀ (l r : Node) (g : Nat), ∃ f, (Node.pair l r).rebind g true (d + 1) = .ok f := by
      intro l r g
      by_cases hb : g.testBit d = true
      · obtain ⟨f1, hf1⟩ := ih r g
        exact ⟨_, Node.rebind_right d l r g true f1 hb hf1⟩
      · obtain ⟨f1, hf1⟩ := ih l g
        exact ⟨_, Node.rebind_left d l r g true f1 (by simpa using hb) hf1⟩
    intro t g
    cases t with
    | pair l r => exact hp l r g
    | chunk c => rw [Node.rebind_chunk]; exact hp _ _ g

/-- An update succeeds where the descent does. -/
theorem Node.rebind_of_descend [ZeroHash] (d : Nat) : ∀ (t : Node) (g : Nat) (e : Bool)
    (x : Node), t.descend g d = .ok x → ∃ f, t.rebind g e d = .ok f := by
  induction d with
  | zero => intro t g e x _; exact ⟨_, Node.rebind_zero t g e⟩
  | succ d ih =>
    intro t g e x h
    cases t with
    | chunk c => simp only [Node.descend] at h; cases h
    | pair l r =>
      by_cases hb : g.testBit d = true
      · simp only [Node.descend, hb, if_true] at h
        obtain ⟨f1, hf1⟩ := ih r g e x h
        exact ⟨_, Node.rebind_right d l r g e f1 hb hf1⟩
      · have hb2 : g.testBit d = false := by simpa using hb
        simp only [Node.descend, hb2] at h
        obtain ⟨f1, hf1⟩ := ih l g e x h
        exact ⟨_, Node.rebind_left d l r g e f1 hb2 hf1⟩

/-- After an update the descent to the updated position finds the new node. -/
theorem Node.descend_rebind [ZeroHash] (d : Nat) : ∀ (t : Node) (g : Nat) (e : Bool) (f : Link)
    (v : Node), t.rebind g e d = .ok f → (f v).descend g d = .ok v := by
  induction d with
  | zero =>
    intro t g e f v h
    rw [Node.rebind_zero] at h
    rw [← Except.ok.inj h]
    exact Node.descend_zero v g
  | succ d ih =>
    intro t g e f v h
    obtain ⟨l, r, _, ⟨hb, f1, hf1, rfl⟩ | ⟨hb, f1, hf1, rfl⟩⟩ := Node.rebind_succ d t g e f h
    · simp only [Node.descend, hb, if_true]
      exact ih r g e f1 v hf1
    · simp only [Node.descend, hb]
      exact ih l g e f1 v hf1

/-- An update leaves in place what the descent to another position found. -/
theorem Node.descend_rebind_ne [ZeroHash] (d : Nat) : ∀ (t : Node) (g g2 : Nat) (e : Bool)
    (f : Link) (v y : Node), t.rebind g e d = .ok f → g % 2 ^ d ≠ g2 % 2 ^ d →
    t.descend g2 d = .ok y → (f v).descend g2 d = .ok y := by
  induction d with
  | zero =>
    intro t g g2 e f v y _ hne
    simp [Nat.mod_one] at hne
  | succ d ih =>
    intro t g g2 e f v y h hne hy
    cases t with
    | chunk c => simp only [Node.descend] at hy; cases hy
    | pair l r =>
      rcases Node.rebind_pair d l r g e f h with ⟨hb, f1, hf1, rfl⟩ | ⟨hb, f1, hf1, rfl⟩
      · by_cases hb2 : g2.testBit d = true
        · simp only [Node.descend, hb2, if_true] at hy ⊢
          exact ih r g g2 e f1 v y hf1 (mod_two_pow_succ_ne g g2 d (by rw [hb, hb2]) hne) hy
        · have hb3 : g2.testBit d = false := by simpa using hb2
          simp only [Node.descend, hb3] at hy ⊢
          exact hy
      · by_cases hb2 : g2.testBit d = true
        · simp only [Node.descend, hb2, if_true] at hy ⊢
          exact hy
        · have hb3 : g2.testBit d = false := by simpa using hb2
          simp only [Node.descend, hb3] at hy ⊢
          exact ih l g g2 e f1 v y hf1 (mod_two_pow_succ_ne g g2 d (by rw [hb, hb3]) hne) hy

/-- The chunk a descent ends on is the chunk of bits at that position. -/
theorem Node.descend_leaf (d : Nat) : ∀ (t : Node) (g : Nat) (r : Root),
    t.descend g d = .ok (.chunk r) → t.leaf g d = r := by
  induction d with
  | zero =>
    intro t g r h
    rw [Node.descend_zero] at h
    rw [Except.ok.inj h]
    rfl
  | succ d ih =>
    intro t g r h
    cases t with
    | chunk c => simp only [Node.descend] at h; cases h
    | pair l r2 =>
      by_cases hb : g.testBit d = true
      · simp only [Node.descend, hb, if_true] at h
        simp only [Node.leaf, hb, if_true]
        exact ih r2 g r h
      · have hb2 : g.testBit d = false := by simpa using hb
        simp only [Node.descend, hb2] at h
        simp only [Node.leaf, hb2]
        exact ih l g r h

theorem Node.leaf_zeroHashes [ZeroHash] (d g : Nat) :
    (Node.chunk (ZeroHashes d)).leaf g d = Root.zero := by
  cases d <;> rfl

theorem Node.sparse_zeroHashes [ZeroHash] (d : Nat) :
    (Node.chunk (ZeroHashes d)).sparse d := by
  cases d with
  | zero => trivial
  | succ d => exact rfl

/-- The bits at a position depend on the lowest `d` digits of the index. -/
theorem Node.leaf_congr (d : Nat) : ∀ (t : Node) (g g2 : Nat), g % 2 ^ d = g2 % 2 ^ d →
    t.leaf g d = t.leaf g2 d := by
  induction d with
  | zero => intro t g g2 _; cases t <;> rfl
  | succ d ih =>
    intro t g g2 h
    obtain ⟨hb, hm⟩ := mod_two_pow_succ_eq g g2 d h
    cases t with
    | chunk c => rfl
    | pair l r =>
      simp only [Node.leaf, hb]
      rw [ih r g g2 hm, ih l g g2 hm]

/-- The bits after an update: the new chunk at the updated position, the bits
that were there at every other position; a placeholder that the update
expanded stood for zero chunks, and zero chunks are there now. -/
theorem Node.leaf_rebind [ZeroHash] (d : Nat) : ∀ (t : Node) (g g2 : Nat) (e : Bool) (f : Link)
    (x : Root), t.rebind g e d = .ok f →
    (f (.chunk x)).leaf g2 d = if g2 % 2 ^ d = g % 2 ^ d then x else t.leaf g2 d := by
  induction d with
  | zero =>
    intro t g g2 e f x h
    rw [Node.rebind_zero] at h
    rw [← Except.ok.inj h, if_pos (by simp [Nat.mod_one])]
    rfl
  | succ d ih =>
    intro t g g2 e f x h
    obtain ⟨l, r, hshape, hstep⟩ := Node.rebind_succ d t g e f h
    have ht : t.leaf g2 (d + 1) = if g2.testBit d then r.leaf g2 d else l.leaf g2 d := by
      rcases hshape with rfl | ⟨⟨c, rfl⟩, _, rfl, rfl⟩
      · rfl
      · rw [Node.leaf_zeroHashes]
        simp only [Node.leaf, ite_self]
    rw [ht]
    rcases hstep with ⟨hb, f1, hf1, rfl⟩ | ⟨hb, f1, hf1, rfl⟩
    · by_cases hb2 : g2.testBit d = true
      · simp only [Node.leaf, hb2, if_true]
        rw [ih r g g2 e f1 x hf1]
        by_cases hm : g2 % 2 ^ d = g % 2 ^ d
        · rw [if_pos hm, if_pos (mod_two_pow_succ_of g2 g d (by rw [hb, hb2]) hm)]
        · rw [if_neg hm, if_neg (fun h2 => hm (mod_two_pow_succ_eq g2 g d h2).2)]
      · have hb3 : g2.testBit d = false := by simpa using hb2
        have hne : ¬ g2 % 2 ^ (d + 1) = g % 2 ^ (d + 1) := by
          intro h2
          have := (mod_two_pow_succ_eq g2 g d h2).1
          rw [hb, hb3] at this
          cases this
        rw [if_neg hne]
        simp only [Node.leaf, hb3]
        rfl
    · by_cases hb2 : g2.testBit d = true
      · have hne : ¬ g2 % 2 ^ (d + 1) = g % 2 ^ (d + 1) := by
          intro h2
          have := (mod_two_pow_succ_eq g2 g d h2).1
          rw [hb, hb2] at this
          cases this
        rw [if_neg hne]
        simp only [Node.leaf, hb2, if_true]
      · have hb3 : g2.testBit d = false := by simpa using hb2
        simp only [Node.leaf, hb3]
        show (f1 (.chunk x)).leaf g2 d = _
        rw [ih l g g2 e f1 x hf1]
        by_cases hm : g2 % 2 ^ d = g % 2 ^ d
        · rw [if_pos hm, if_pos (mod_two_pow_succ_of g2 g d (by rw [hb, hb3]) hm)]
        · rw [if_neg hm, if_neg (fun h2 => hm (mod_two_pow_succ_eq g2 g d h2).2)]
          rfl

/-- An update keeps the shape of a content subtree. -/
theorem Node.sparse_rebind [ZeroHash] (d : Nat) : ∀ (t : Node) (g : Nat) (e : Bool) (f : Link)
    (x : Root), t.sparse d → t.rebind g e d = .ok f → (f (.chunk x)).sparse d := by
  induction d with
  | zero =>
    intro t g e f x _ h
    rw [Node.rebind_zero] at h
    rw [← Except.ok.inj h]
    trivial
  | succ d ih =>
    intro t g e f x hs h
    obtain ⟨l, r, hshape, hstep⟩ := Node.rebind_succ d t g e f h
    have hlr : l.sparse d ∧ r.sparse d := by
      rcases hshape with rfl | ⟨_, _, rfl, rfl⟩
      · exact hs
      · exact ⟨Node.sparse_zeroHashes d, Node.sparse_zeroHashes d⟩
    rcases hstep with ⟨_, f1, hf1, rfl⟩ | ⟨_, f1, hf1, rfl⟩
    · exact ⟨hlr.1, ih r g e f1 x hlr.2 hf1⟩
    · exact ⟨ih l g e f1 x hlr.1 hf1, hlr.2⟩

/-- A content subtree of zero chunks has the Merkle root that the zero table
holds for its depth, under the hash function of the table. -/
theorem Node.MerkleRoot_zero [ZeroHash] (d : Nat) : ∀ (t : Node), t.sparse d →
    (∀ g, t.leaf g d = Root.zero) → t.MerkleRoot ZeroHash.hash = ZeroHashes d := by
  induction d with
  | zero =>
    intro t hs hz
    cases t with
    | chunk c => exact hz 0
    | pair l r => exact hs.elim
  | succ d ih =>
    intro t hs hz
    cases t with
    | chunk c => exact hs
    | pair l r =>
      have hl : ∀ g, l.leaf g d = Root.zero := by
        intro g
        have h1 := hz (g % 2 ^ d)
        have hb : (g % 2 ^ d).testBit d = false :=
          Nat.testBit_lt_two_pow (Nat.mod_lt _ (Nat.two_pow_pos d))
        simp only [Node.leaf, hb] at h1
        rw [Node.leaf_congr d l g (g % 2 ^ d) (Nat.mod_mod _ _).symm]
        exact h1
      have hr : ∀ g, r.leaf g d = Root.zero := by
        intro g
        have h1 := hz (2 ^ d + g % 2 ^ d)
        have hb : (2 ^ d + g % 2 ^ d).testBit d = true := by
          rw [Nat.testBit_two_pow_add_eq]
          simp [Nat.testBit_lt_two_pow (Nat.mod_lt g (Nat.two_pow_pos d))]
        simp only [Node.leaf, hb, if_true] at h1
        rw [Node.leaf_congr d r g (2 ^ d + g % 2 ^ d)
          (by rw [Nat.add_mod_left, Nat.mod_mod])]
        exact h1
      show ZeroHash.hash (l.MerkleRoot ZeroHash.hash) (r.MerkleRoot ZeroHash.hash) = _
      rw [ih l hs.1 hl, ih r hs.2 hr]
      rfl

/-- Two content subtrees with the same bits have the same Merkle root under
the hash function of the zero table, however far each is expanded. -/
theorem Node.MerkleRoot_sparse [ZeroHash] (d : Nat) : ∀ (t t2 : Node), t.sparse d →
    t2.sparse d → (∀ g, t.leaf g d = t2.leaf g d) →
    t.MerkleRoot ZeroHash.hash = t2.MerkleRoot ZeroHash.hash := by
  induction d with
  | zero =>
    intro t t2 hs hs2 h
    cases t with
    | pair l r => exact hs.elim
    | chunk c =>
      cases t2 with
      | pair l r => exact hs2.elim
      | chunk c2 => exact h 0
  | succ d ih =>
    intro t t2 hs hs2 h
    cases t with
    | chunk c =>
      have hz : ∀ g, t2.leaf g (d + 1) = Root.zero := fun g => (h g).symm
      rw [Node.MerkleRoot_zero (d + 1) t2 hs2 hz]
      exact hs
    | pair l r =>
      cases t2 with
      | chunk c2 =>
        have hz : ∀ g, (Node.pair l r).leaf g (d + 1) = Root.zero := fun g => h g
        rw [Node.MerkleRoot_zero (d + 1) _ hs hz]
        exact hs2.symm
      | pair l2 r2 =>
        have hl : ∀ g, l.leaf g d = l2.leaf g d := by
          intro g
          have h1 := h (g % 2 ^ d)
          have hb : (g % 2 ^ d).testBit d = false :=
            Nat.testBit_lt_two_pow (Nat.mod_lt _ (Nat.two_pow_pos d))
          simp only [Node.leaf, hb] at h1
          rw [Node.leaf_congr d l g (g % 2 ^ d) (Nat.mod_mod _ _).symm,
            Node.leaf_congr d l2 g (g % 2 ^ d) (Nat.mod_mod _ _).symm]
          exact h1
        have hr : ∀ g, r.leaf g d = r2.leaf g d := by
          intro g
          have h1 := h (2 ^ d + g % 2 ^ d)
          have hb : (2 ^ d + g % 2 ^ d).testBit d = true := by
            rw [Nat.testBit_two_pow_add_eq]
            simp [Nat.testBit_lt_two_pow (Nat.mod_lt g (Nat.two_pow_pos d))]
          simp only [Node.leaf, hb, if_true] at h1
          have e : g % 2 ^ d = (2 ^ d + g % 2 ^ d) % 2 ^ d := by
            rw [Nat.add_mod_left, Nat.mod_mod]
          rw [Node.leaf_congr d r g (2 ^ d + g % 2 ^ d) e,
            Node.leaf_congr d r2 g (2 ^ d + g % 2 ^ d) e]
          exact h1
        show ZeroHash.hash (l.MerkleRoot ZeroHash.hash) (r.MerkleRoot ZeroHash.hash)
          = ZeroHash.hash (l2.MerkleRoot ZeroHash.hash) (r2.MerkleRoot ZeroHash.hash)
        rw [ih l l2 hs.1 hs2.1 hl, ih r r2 hs.2 hs2.2 hr]

/-! ## The bit-list calls on standalone views -/

theorem subviewNode_listView (L : Nat) (c : Node) (n i : Nat) (hL : L + 255 < 2 ^ 64)
    (hi : i < L) (r : Root)
    (hr : c.descend (2 ^ (contentDepth L + 1) + i >>> 8) (contentDepth L) = .ok (.chunk r)) :
    (listView L c n).subviewNode i = .ok (r, i >>> 8, i % 256) := by
  simp only [BitListView.subviewNode, GetNode_listView L c n i hL hi, hr]

/-- `Append` below the limit, on a view whose last chunk is there when it is
begun: the expanding setter succeeds, and the call writes the bit and the new
length. -/
theorem Append_listView [ZeroHash] (L : Nat) (c : Node) (n : Nat) (b : Bool)
    (hL : L + 255 < 2 ^ 64) (hn : n < L)
    (hcov : n % 256 ≠ 0 →
      ∃ r, c.descend (2 ^ (contentDepth L + 1) + n >>> 8) (contentDepth L) = .ok (.chunk r)) :
    ∃ f : Link,
      c.rebind (2 ^ (contentDepth L + 1) + n >>> 8) true (contentDepth L) = .ok f ∧
      (listView L c n).Append b
        = (listView L (f (.chunk (BoolView.BackingFromBitfieldBase b
            (if n % 256 = 0 then Root.zero
              else c.leaf (2 ^ (contentDepth L + 1) + n >>> 8) (contentDepth L))
            (n % 256)))) (n + 1), none) := by
  obtain ⟨h1, h2⟩ := contentDepth_bound L n hL hn
  have h3 : n >>> 8 < 2 ^ (contentDepth L + 1) := by rw [pow_succ]; omega
  obtain ⟨f, hf⟩ := Node.rebind_expand (contentDepth L) c (2 ^ (contentDepth L + 1) + n >>> 8)
  refine ⟨f, hf, ?_⟩
  have hlen := Length_listView L c n (by omega) (by omega)
  have hge : ¬ n ≥ (listView L c n).td.BitLimit := by
    simp only [listView, BitlistType]; omega
  have hG : ToGindex64 (n >>> 8) (listView L c n).depth
      = .ok (2 ^ (contentDepth L + 1) + n >>> 8) := ToGindex64_ok _ _ h2 h3
  have hS : (listView L c n).BackingNode.Setter (2 ^ (contentDepth L + 1) + n >>> 8) true
      = .ok (fun v => .pair (f v) (.chunk (lengthChunk n))) :=
    Setter_content _ _ _ _ _ h2 h1 f hf
  have hmod : (n + 1) % 2 ^ 64 = n + 1 := Nat.mod_eq_of_lt (by omega)
  unfold BitListView.Append
  rw [hlen]
  simp only [hge, if_false, hG, hS, Node.Setter_right, hmod, and_0xff]
  by_cases hz : n % 256 = 0
  · simp only [hz, if_true]
    rfl
  · obtain ⟨r, hr⟩ := hcov hz
    simp only [hz, if_false, subviewNode_listView L c n n hL hn r hr,
      Node.descend_leaf _ c _ r hr]
    rfl

/-- `Pop` on a non-empty view whose last chunk is there. -/
theorem Pop_listView [ZeroHash] (L : Nat) (c : Node) (n : Nat) (hL : L + 255 < 2 ^ 64)
    (hn0 : 0 < n) (hn : n ≤ L) (r : Root)
    (hr : c.descend (2 ^ (contentDepth L + 1) + (n - 1) >>> 8) (contentDepth L)
      = .ok (.chunk r)) :
    ∃ f : Link,
      c.rebind (2 ^ (contentDepth L + 1) + (n - 1) >>> 8) true (contentDepth L) = .ok f ∧
      (listView L c n).Pop
        = (listView L (f (.chunk (BoolView.BackingFromBitfieldBase false r ((n - 1) % 256))))
            (n - 1), none) := by
  have hn1 : n - 1 < L := by omega
  obtain ⟨h1, h2⟩ := contentDepth_bound L (n - 1) hL hn1
  have h3 : (n - 1) >>> 8 < 2 ^ (contentDepth L + 1) := by rw [pow_succ]; omega
  obtain ⟨f, hf⟩ :=
    Node.rebind_expand (contentDepth L) c (2 ^ (contentDepth L + 1) + (n - 1) >>> 8)
  refine ⟨f, hf, ?_⟩
  have hsub := subviewNode_listView L c n (n - 1) hL hn1 r hr
  have hlen := Length_listView L c n hn (by omega)
  have hne : ¬ n = 0 := by omega
  have hG : ToGindex64 ((n - 1) >>> 8) (listView L c n).depth
      = .ok (2 ^ (contentDepth L + 1) + (n - 1) >>> 8) := ToGindex64_ok _ _ h2 h3
  have hS : (listView L c n).BackingNode.Setter (2 ^ (contentDepth L + 1) + (n - 1) >>> 8) true
      = .ok (fun v => .pair (f v) (.chunk (lengthChunk n))) :=
    Setter_content _ _ _ _ _ h2 h1 f hf
  unfold BitListView.Pop
  rw [hlen]
  simp only [hne, if_false, hG, hS, hsub, Node.Setter_right]
  rfl

/-- `Set` below the length, on a view where the chunk of the bit is there. -/
theorem Set_listView [ZeroHash] (L : Nat) (c : Node) (n i : Nat) (b : Bool)
    (hL : L + 255 < 2 ^ 64) (hi : i < n) (hn : n ≤ L) (r : Root)
    (hr : c.descend (2 ^ (contentDepth L + 1) + i >>> 8) (contentDepth L) = .ok (.chunk r)) :
    ∃ f : Link,
      c.rebind (2 ^ (contentDepth L + 1) + i >>> 8) false (contentDepth L) = .ok f ∧
      (listView L c n).Set i b
        = (listView L (f (.chunk (BoolView.BackingFromBitfieldBase b r (i % 256)))) n, none) := by
  have hiL : i < L := by omega
  obtain ⟨h1, h2⟩ := contentDepth_bound L i hL hiL
  have h3 : i >>> 8 < 2 ^ (contentDepth L + 1) := by rw [pow_succ]; omega
  obtain ⟨f, hf⟩ := Node.rebind_of_descend (contentDepth L) c
    (2 ^ (contentDepth L + 1) + i >>> 8) false _ hr
  refine ⟨f, hf, ?_⟩
  have hsub := subviewNode_listView L c n i hL hiL r hr
  have hck := CheckIndex_listView L c n i hn (by omega)
  rw [if_neg (by omega)] at hck
  have hG : ToGindex64 (i >>> 8) (listView L c n).depth
      = .ok (2 ^ (contentDepth L + 1) + i >>> 8) := ToGindex64_ok _ _ h2 h3
  have hS : (listView L c n).BackingNode.Setter (2 ^ (contentDepth L + 1) + i >>> 8) false
      = .ok (fun v => .pair (f v) (.chunk (lengthChunk n))) :=
    Setter_content _ _ _ _ _ h2 h1 f hf
  unfold BitListView.Set
  rw [hck]
  simp only [hsub, BitListView.SetNode, hG, hS]
  rfl

/-- The default list is a standalone view over the placeholder of its content
subtree, with the length 0. -/
theorem defaultList_eq [ZeroHash] (L : Nat) :
    defaultList L = listView L (.chunk (ZeroHashes (contentDepth L))) 0 := by
  simp only [defaultList, BitListTypeDef.Default, BitListTypeDef.New,
    BitListTypeDef.ViewFromBacking,
    BitListTypeDef.DefaultNode, listView, lengthChunk_zero, ZeroHashes, contentDepth]

/-! ## The views a list goes through -/

/-- An update of the chunk of bit `i` keeps a content subtree in shape: the
chunks of the bits below the new length `m` are there and the bits from `m`
on are clear, when the new chunk `x` holds no bit from `m` on. -/
theorem clean_update [ZeroHash] (d : Nat) (c : Node) (n m i : Nat) (x : Root) (e : Bool)
    (f : Link) (hs : c.sparse d) (hcov : covered d c n) (hz : zeroBeyond d c n)
    (hi : i >>> 8 < 2 ^ d) (hbound : ∀ i2, i2 < n → i2 >>> 8 < 2 ^ d)
    (hf : c.rebind (2 ^ (d + 1) + i >>> 8) e d = .ok f)
    (hm : ∀ i2, i2 < m → i2 < n ∨ i2 >>> 8 = i >>> 8)
    (hx : ∀ j, j < 256 → m ≤ 256 * (i >>> 8) + j → x.bit j = false)
    (hmn : ∀ k j, k ≠ i >>> 8 → j < 256 → m ≤ 256 * k + j → n ≤ 256 * k + j) :
    (f (.chunk x)).sparse d ∧ covered d (f (.chunk x)) m ∧ zeroBeyond d (f (.chunk x)) m := by
  refine ⟨Node.sparse_rebind d c _ e f x hs hf, ?_, ?_⟩
  · intro i2 hi2
    by_cases hk : i2 >>> 8 = i >>> 8
    · rw [hk]
      exact ⟨x, Node.descend_rebind d c _ e f _ hf⟩
    · have hlt : i2 < n := by
        rcases hm i2 hi2 with h | h
        · exact h
        · exact absurd h hk
      obtain ⟨r, hr⟩ := hcov i2 hlt
      exact ⟨r, Node.descend_rebind_ne d c _ _ e f _ _ hf
        (content_index_ne d _ _ hi (hbound i2 hlt) (fun h => hk h.symm)) hr⟩
  · intro g j hj hpos
    rw [Node.leaf_rebind d c _ g e f x hf, content_index_mod d _ hi]
    by_cases hk : g % 2 ^ d = i >>> 8
    · rw [if_pos hk]
      rw [hk] at hpos
      exact hx j hj hpos
    · rw [if_neg hk]
      exact hz g j hj (hmn _ j hk hj hpos)

theorem clean_step [ZeroHash] (L : Nat) (hL : L + 255 < 2 ^ 64) (tv : BitListView) (op : Op)
    (h : Clean L tv) : Clean L (tv.step op) := by
  obtain ⟨c, n, rfl, hn, hs, hcov, hz⟩ := h
  have hbound : ∀ i2, i2 < n → i2 >>> 8 < 2 ^ contentDepth L :=
    fun i2 h2 => (contentDepth_bound L i2 hL (by omega)).1
  cases op with
  | append b =>
    by_cases hlt : n < L
    · have hc0 : n % 256 ≠ 0 → ∃ r, c.descend (2 ^ (contentDepth L + 1) + n >>> 8)
          (contentDepth L) = .ok (.chunk r) := by
        intro h0
        have e : (n - 1) >>> 8 = n >>> 8 := by
          simp only [Nat.shiftRight_eq_div_pow]; omega
        have := hcov (n - 1) (by omega)
        rw [e] at this
        exact this
      obtain ⟨f, hf, happ⟩ := Append_listView L c n b hL hlt hc0
      obtain ⟨hk0, _⟩ := contentDepth_bound L n hL hlt
      simp only [BitListView.step, happ]
      obtain ⟨a1, a2, a3⟩ := clean_update (contentDepth L) c n (n + 1) n
        (BoolView.BackingFromBitfieldBase b
            (if n % 256 = 0 then Root.zero
              else c.leaf (2 ^ (contentDepth L + 1) + n >>> 8) (contentDepth L))
            (n % 256)) true f hs hcov hz hk0
        hbound hf (fun i2 h2 => by
          by_cases h3 : i2 < n
          · exact Or.inl h3
          · right
            have : i2 = n := by omega
            rw [this])
        (fun j hj hpos => by
          rw [BackingFromBitfieldBase_bit b _ _ j (Nat.mod_lt _ (by decide)),
            if_neg (by simp only [Nat.shiftRight_eq_div_pow] at hpos; omega)]
          by_cases hz0 : n % 256 = 0
          · rw [if_pos hz0, Root.zero_bit]
          · rw [if_neg hz0]
            apply hz _ j hj
            rw [content_index_mod _ _ hk0]
            simp only [Nat.shiftRight_eq_div_pow] at hpos ⊢; omega)
        (fun k j _ _ hpos => by omega)
      exact ⟨_, n + 1, rfl, by omega, a1, a2, a3⟩
    · have happ := Append_at_limit (listView L c n) b n (Length_listView L c n hn (by omega))
        (by simp only [listView, BitlistType]; omega)
      simp only [BitListView.step, happ]
      exact ⟨c, n, rfl, hn, hs, hcov, hz⟩
  | pop =>
    by_cases h0 : 0 < n
    · obtain ⟨r, hr⟩ := hcov (n - 1) (by omega)
      obtain ⟨f, hf, hpop⟩ := Pop_listView L c n hL h0 hn r hr
      obtain ⟨hk0, _⟩ := contentDepth_bound L (n - 1) hL (by omega)
      simp only [BitListView.step, hpop]
      obtain ⟨a1, a2, a3⟩ := clean_update (contentDepth L) c n (n - 1) (n - 1)
        (BoolView.BackingFromBitfieldBase false r ((n - 1) % 256)) true f hs hcov
        hz hk0 hbound hf (fun i2 h2 => Or.inl (by omega))
        (fun j hj hpos => by
          rw [BackingFromBitfieldBase_bit false _ _ j (Nat.mod_lt _ (by decide))]
          by_cases hjj : j = (n - 1) % 256
          · rw [if_pos hjj]
          · rw [if_neg hjj, ← Node.descend_leaf _ c _ r hr]
            apply hz _ j hj
            rw [content_index_mod _ _ hk0]
            simp only [Nat.shiftRight_eq_div_pow] at hpos ⊢; omega)
        (fun k j _ _ hpos => by omega)
      exact ⟨_, n - 1, rfl, by omega, a1, a2, a3⟩
    · have hz0 : n = 0 := by omega
      subst hz0
      have hpop := Pop_empty (listView L c 0) (Length_listView L c 0 hn (by omega))
      simp only [BitListView.step, hpop]
      exact ⟨c, 0, rfl, hn, hs, hcov, hz⟩
  | set i b =>
    by_cases hi : i < n
    · obtain ⟨r, hr⟩ := hcov i hi
      obtain ⟨f, hf, hset⟩ := Set_listView L c n i b hL hi hn r hr
      obtain ⟨hk0, _⟩ := contentDepth_bound L i hL (by omega)
      simp only [BitListView.step, hset]
      obtain ⟨a1, a2, a3⟩ := clean_update (contentDepth L) c n n i
        (BoolView.BackingFromBitfieldBase b r (i % 256)) false f hs hcov hz hk0
        hbound hf (fun i2 h2 => Or.inl h2)
        (fun j hj hpos => by
          rw [BackingFromBitfieldBase_bit b _ _ j (Nat.mod_lt _ (by decide)),
            if_neg (by simp only [Nat.shiftRight_eq_div_pow] at hpos; omega),
            ← Node.descend_leaf _ c _ r hr]
          apply hz _ j hj
          rw [content_index_mod _ _ hk0]
          exact hpos)
        (fun k j _ _ hpos => hpos)
      exact ⟨_, n, rfl, hn, a1, a2, a3⟩
    · have hset := Set_listView_out_of_range L c n i b hn (by omega) (by omega)
      simp only [BitListView.step, hset]
      exact ⟨c, n, rfl, hn, hs, hcov, hz⟩

theorem clean_default [ZeroHash] (L : Nat) : Clean L (defaultList L) := by
  refine ⟨_, 0, defaultList_eq L, Nat.zero_le _, Node.sparse_zeroHashes _, ?_, ?_⟩
  · intro i hi
    omega
  · intro g j _ _
    rw [Node.leaf_zeroHashes, Root.zero_bit]

/-- Every view reached from the default list of a limit `L` with
`L + 255 < 2^64` by `Append`/`Pop`/`Set` calls is a standalone view over a
content subtree in shape. -/
theorem clean_reachable [ZeroHash] (L : Nat) (hL : L + 255 < 2 ^ 64) (ops : List Op) :
    Clean L ((defaultList L).run ops) := by
  have hrun : ∀ (ops : List Op) (tv : BitListView), Clean L tv → Clean L (tv.run ops) := by
    intro ops
    induction ops with
    | nil => intro tv h; exact h
    | cons op ops ih => intro tv h; exact ih _ (clean_step L hL tv op h)
  exact hrun ops _ (clean_default L)

/-! ## The length invariant, `Append` at the limit, `Pop` on empty -/

/-- C5, as amended: for a limit `L` with `L + 255 < 2^64`, after every sequence
of `Append`/`Pop`/`Set` calls on the default list created without a commit
hook, whether the calls succeed or not, `Length()` returns without error a
value `n ≤ L`. -/
theorem length_within_limit [ZeroHash] (L : Nat) (hL : L + 255 < 2 ^ 64) (ops : List Op) :
    ∃ n, ((defaultList L).run ops).Length = .ok n ∧ n ≤ L := by
  obtain ⟨c, n, h, hn, _⟩ := clean_reachable L hL ops
  exact ⟨n, by rw [h]; exact Length_listView L c n hn (by omega), hn⟩

theorem length_within_limit_witness :
    ∃ n, ((defaultList 1000).run
        [.append true, .pop, .pop, .set 3 true, .append false, .append true, .set 1 false]).Length
      = .ok n ∧ n ≤ 1000 :=
  length_within_limit 1000 (by decide) _

set_option maxRecDepth 100000 in
/-- C5, as stated, fails in two ways.  With the limit `2^64 - 255` the sum
`BitLimit + 0xff` wraps, the content subtree is a single chunk, and `Set` at
the indices 256 and up writes into the length chunk: after 266 appends and 55
`Set` calls, all of them successful, the stored length exceeds the limit and
`Length()` fails.  And a default list created with the commit hook of a
container takes the node of the container as its backing node: after one
`Append` on a list of limit 16, `Length()` reads the second field of the
container and fails. -/
theorem length_exceeds_limit :
    ((defaultList wrapLimit).run (wrapOps ++ wrapSets)).Length = .error .corruptLength ∧
    (((BitlistType 16).Default (some (containerHook 17))).run [.append true]).Length
      = .error .corruptLength := by
  rw [BitListView.run_append, run_wrapOps]
  decide

/-- C6, as amended: `Append` on a list whose length equals the limit returns an
error and leaves the view as it was; on a list reached from the default of a
limit `L` with `L + 255 < 2^64`, created without a commit hook, whose length
is below `L` it succeeds (and the length grows by one). -/
theorem append_at_limit [ZeroHash] :
    (∀ (tv : BitListView) (b : Bool), tv.Length = .ok tv.td.BitLimit →
      tv.Append b = (tv, some .limitExceeded)) ∧
    (∀ (L : Nat) (ops : List Op) (n : Nat) (b : Bool), L + 255 < 2 ^ 64 →
      ((defaultList L).run ops).Length = .ok n → n < L →
      (((defaultList L).run ops).Append b).2 = none ∧
      (((defaultList L).run ops).Append b).1.Length = .ok (n + 1)) := by
  refine ⟨fun tv b h => Append_at_limit tv b _ h (Nat.le_refl _), ?_⟩
  intro L ops n b hL hlen hn
  have hc := clean_step L hL _ (.append b) (clean_reachable L hL ops)
  obtain ⟨c, m, h, hm, _, hcov, _⟩ := clean_reachable L hL ops
  rw [h] at hlen hc ⊢
  rw [Length_listView L c m hm (by omega)] at hlen
  have hmn : m = n := by injection hlen
  subst hmn
  have hc0 : m % 256 ≠ 0 → ∃ r, c.descend (2 ^ (contentDepth L + 1) + m >>> 8)
      (contentDepth L) = .ok (.chunk r) := by
    intro h0
    have e : (m - 1) >>> 8 = m >>> 8 := by
      simp only [Nat.shiftRight_eq_div_pow]; omega
    have := hcov (m - 1) (by omega)
    rw [e] at this
    exact this
  obtain ⟨f, _, happ⟩ := Append_listView L c m b hL hn hc0
  rw [happ]
  exact ⟨rfl, Length_listView L _ (m + 1) (by omega) (by omega)⟩

theorem append_at_limit_witness :
    ((defaultList 2).run [.append true, .append false]).Append true
      = ((defaultList 2).run [.append true, .append false], some .limitExceeded) ∧
    (((defaultList 1000).run [.append true]).Append false).2 = none ∧
    (((defaultList 1000).run [.append true]).Append false).1.Length = .ok 2 :=
  ⟨append_at_limit.1 _ true (by decide),
   append_at_limit.2 1000 [.append true] 1 false (by decide) (by decide) (by decide)⟩

/-- C6, as stated, fails in two ways.  With the limit `2^64 - 255` the content
subtree is a single chunk; after 266 appends and `Set(265, true)` the length
reads 778, below the limit, and `Append` fails.  And on a default list of
limit 16 created with the commit hook of a container, after one `Append` the
length reads 1 (the second field of the container) and `Append` fails. -/
theorem append_below_limit_fails :
    (((defaultList wrapLimit).run wrapOps).Length = .ok 778 ∧ 778 < wrapLimit ∧
      (((defaultList wrapLimit).run wrapOps).Append true).2 = some .navigation) ∧
    ((((BitlistType 16).Default (some (containerHook 1))).run [.append true]).Length = .ok 1 ∧
      ((((BitlistType 16).Default (some (containerHook 1))).run [.append true]).Append true).2
        = some .bottomNotRoot) := by
  rw [run_wrapOps]
  decide

/-- C7, as amended: `Pop` on a list of length 0 returns an error and leaves the
view as it was; on a list reached from the default of a limit `L` with
`L + 255 < 2^64`, created without a commit hook, whose length is `n > 0` it
succeeds and the length becomes `n - 1`. -/
theorem pop_on_empty [ZeroHash] :
    (∀ (tv : BitListView), tv.Length = .ok 0 → tv.Pop = (tv, some .emptyList)) ∧
    (∀ (L : Nat) (ops : List Op) (n : Nat), L + 255 < 2 ^ 64 →
      ((defaultList L).run ops).Length = .ok n → 0 < n →
      ((defaultList L).run ops).Pop.2 = none ∧
      ((defaultList L).run ops).Pop.1.Length = .ok (n - 1)) := by
  refine ⟨fun tv h => Pop_empty tv h, ?_⟩
  intro L ops n hL hlen hn
  obtain ⟨c, m, h, hm, _, hcov, _⟩ := clean_reachable L hL ops
  rw [h] at hlen ⊢
  rw [Length_listView L c m hm (by omega)] at hlen
  have hmn : m = n := by injection hlen
  subst hmn
  obtain ⟨r, hr⟩ := hcov (m - 1) (by omega)
  obtain ⟨f, _, hpop⟩ := Pop_listView L c m hL hn hm r hr
  rw [hpop]
  exact ⟨rfl, Length_listView L _ (m - 1) (by omega) (by omega)⟩

theorem pop_on_empty_witness :
    ((defaultList 16).run [.append true, .pop]).Pop
      = ((defaultList 16).run [.append true, .pop], some .emptyList) ∧
    ((defaultList 1000).run [.append true, .append true]).Pop.2 = none ∧
    ((defaultList 1000).run [.append true, .append true]).Pop.1.Length = .ok 1 :=
  ⟨pop_on_empty.1 _ (by decide),
   pop_on_empty.2 1000 [.append true, .append true] 2 (by decide) (by decide) (by decide)⟩

/-- C7, as stated, fails in two ways.  With the limit `2^64 - 255`, after 266
appends and `Set(265, true)` the length reads 778 and `Pop` fails.  And on a
default list of limit 16 created with the commit hook of a container, after
one `Append` the length reads 1 and `Pop` fails. -/
theorem pop_nonempty_fails :
    (((defaultList wrapLimit).run wrapOps).Length = .ok 778 ∧
      ((defaultList wrapLimit).run wrapOps).Pop.2 = some .navigation) ∧
    ((((BitlistType 16).Default (some (containerHook 1))).run [.append true]).Length = .ok 1 ∧
      (((BitlistType 16).Default (some (containerHook 1))).run [.append true]).Pop.2
        = some .bottomNotRoot) := by
  rw [run_wrapOps]
  decide

/-- Where C3 holds and where it does not: on a list reached from the default of
a limit `L` with `L + 255 < 2^64`, `Set(i, b)` succeeds for every `i` below the
length, and the following `Get(i)` returns `b` when the position of the bit in
its chunk is at most 32 and an error otherwise. -/
theorem Get_after_Set [ZeroHash] (L : Nat) (ops : List Op) (n i : Nat) (b : Bool)
    (hL : L + 255 < 2 ^ 64)
    (hlen : ((defaultList L).run ops).Length = .ok n) (hi : i < n) :
    (((defaultList L).run ops).Set i b).2 = none ∧
    (((defaultList L).run ops).Set i b).1.Get i
      = if i % 256 > 32 then .error .bitRange else .ok b := by
  obtain ⟨c, m, h, hm, _, hcov, _⟩ := clean_reachable L hL ops
  rw [h] at hlen ⊢
  rw [Length_listView L c m hm (by omega)] at hlen
  have hmn : m = n := by injection hlen
  subst hmn
  obtain ⟨r, hr⟩ := hcov i hi
  obtain ⟨f, hf, hset⟩ := Set_listView L c m i b hL hi hm r hr
  rw [hset]
  refine ⟨rfl, ?_⟩
  rw [Get_listView L _ m i hL hi hm _ (Node.descend_rebind _ c _ false f _ hf)]
  exact BoolViewFromBitfieldBacking_write b r (i % 256) (Nat.mod_lt _ (by decide))

/-! ## `Append` then `Pop` -/

/-- Writing back the node that is there gives the tree back. -/
theorem Node.rebind_same [ZeroHash] (d : Nat) : ∀ (t : Node) (g : Nat) (e : Bool) (f : Link)
    (v : Node), t.rebind g e d = .ok f → t.descend g d = .ok v → f v = t := by
  induction d with
  | zero =>
    intro t g e f v hf hv
    rw [Node.rebind_zero] at hf
    rw [Node.descend_zero] at hv
    rw [← Except.ok.inj hf, Except.ok.inj hv]
  | succ d ih =>
    intro t g e f v hf hv
    cases t with
    | chunk c => simp only [Node.descend] at hv; cases hv
    | pair l r =>
      rcases Node.rebind_pair d l r g e f hf with ⟨hb, f1, hf1, rfl⟩ | ⟨hb, f1, hf1, rfl⟩
      · simp only [Node.descend, hb, if_true] at hv
        simp only [ih r g e f1 v hf1 hv]
      · simp only [Node.descend, hb] at hv
        simp only [ih l g e f1 v hf1 hv]

/-- A second update of the same position replaces the first. -/
theorem Node.rebind_twice [ZeroHash] (d : Nat) : ∀ (t : Node) (g : Nat) (e e2 : Bool)
    (f f2 : Link) (x : Node), t.rebind g e d = .ok f → (f x).rebind g e2 d = .ok f2 →
    ∀ v, f2 v = f v := by
  induction d with
  | zero =>
    intro t g e e2 f f2 x hf hf2 v
    rw [Node.rebind_zero] at hf hf2
    rw [← Except.ok.inj hf, ← Except.ok.inj hf2]
  | succ d ih =>
    intro t g e e2 f f2 x hf hf2 v
    obtain ⟨l, r, _, ⟨hb, f1, hf1, rfl⟩ | ⟨hb, f1, hf1, rfl⟩⟩ := Node.rebind_succ d t g e f hf
    · rcases Node.rebind_pair d l (f1 x) g e2 f2 hf2 with ⟨_, f3, hf3, rfl⟩ | ⟨hb2, _, _, _⟩
      · simp only [ih r g e e2 f1 f3 x hf1 hf3 v]
      · rw [hb] at hb2; cases hb2
    · rcases Node.rebind_pair d (f1 x) r g e2 f2 hf2 with ⟨hb2, _, _, _⟩ | ⟨_, f3, hf3, rfl⟩
      · rw [hb] at hb2; cases hb2
      · simp only [ih l g e e2 f1 f3 x hf1 hf3 v]

/-- `Append` then `Pop` on a view in shape: both succeed and leave a view in
shape with the same length and the same bits; the content subtree is the same
node for node when the chunk of bit `n` was there before the `Append`. -/
theorem Append_Pop_listView [ZeroHash] (L : Nat) (c : Node) (n : Nat) (b : Bool)
    (hL : L + 255 < 2 ^ 64) (hn : n < L) (hs : c.sparse (contentDepth L))
    (hcov : covered (contentDepth L) c n) (hz : zeroBeyond (contentDepth L) c n) :
    ∃ c2, ((listView L c n).Append b).2 = none ∧
      ((listView L c n).Append b).1.Pop = (listView L c2 n, none) ∧
      c2.sparse (contentDepth L) ∧ covered (contentDepth L) c2 n ∧
      zeroBeyond (contentDepth L) c2 n ∧
      (∀ g, c2.leaf g (contentDepth L) = c.leaf g (contentDepth L)) ∧
      ((∃ r, c.descend (2 ^ (contentDepth L + 1) + n >>> 8) (contentDepth L)
        = .ok (.chunk r)) → c2 = c) := by
  have hc0 : n % 256 ≠ 0 → ∃ r, c.descend (2 ^ (contentDepth L + 1) + n >>> 8)
      (contentDepth L) = .ok (.chunk r) := by
    intro h0
    have e : (n - 1) >>> 8 = n >>> 8 := by
      simp only [Nat.shiftRight_eq_div_pow]; omega
    have := hcov (n - 1) (by omega)
    rw [e] at this
    exact this
  obtain ⟨hk0, _⟩ := contentDepth_bound L n hL hn
  have hbound : ∀ i2, i2 < n → i2 >>> 8 < 2 ^ contentDepth L :=
    fun i2 h2 => (contentDepth_bound L i2 hL (by omega)).1
  obtain ⟨f, hf, happ⟩ := Append_listView L c n b hL hn hc0
  -- the chunk that `Append` starts from is the chunk of bits that is there
  have hbase : (if n % 256 = 0 then Root.zero
      else c.leaf (2 ^ (contentDepth L + 1) + n >>> 8) (contentDepth L))
      = c.leaf (2 ^ (contentDepth L + 1) + n >>> 8) (contentDepth L) := by
    by_cases hz0 : n % 256 = 0
    · rw [if_pos hz0]
      apply Root.ext_bit
      intro k hk
      rw [Root.zero_bit]
      symm
      apply hz _ k hk
      rw [content_index_mod _ _ hk0]
      simp only [Nat.shiftRight_eq_div_pow]; omega
    · rw [if_neg hz0]
  rw [hbase] at happ
  have hbit : (c.leaf (2 ^ (contentDepth L + 1) + n >>> 8) (contentDepth L)).bit (n % 256)
      = false := by
    apply hz _ _ (Nat.mod_lt _ (by decide))
    rw [content_index_mod _ _ hk0]
    simp only [Nat.shiftRight_eq_div_pow]; omega
  have e1 : n + 1 - 1 = n := by omega
  have hr1 := Node.descend_rebind (contentDepth L) c _ true f
    (.chunk (BoolView.BackingFromBitfieldBase b
      (c.leaf (2 ^ (contentDepth L + 1) + n >>> 8) (contentDepth L)) (n % 256))) hf
  obtain ⟨f2, hf2, hpop⟩ := Pop_listView L _ (n + 1) hL (by omega) (by omega) _
    (by rw [e1]; exact hr1)
  rw [e1, clear_after_write b _ _ (Nat.mod_lt _ (by decide)) hbit] at hpop
  rw [e1] at hf2
  refine ⟨_, by rw [happ], by rw [happ]; exact hpop, ?_⟩
  have hleaf : ∀ g, (f2 (.chunk (c.leaf (2 ^ (contentDepth L + 1) + n >>> 8)
      (contentDepth L)))).leaf g (contentDepth L) = c.leaf g (contentDepth L) := by
    intro g
    rw [Node.leaf_rebind _ _ _ g true f2 _ hf2, Node.leaf_rebind _ _ _ g true f _ hf]
    by_cases hg : g % 2 ^ contentDepth L
        = (2 ^ (contentDepth L + 1) + n >>> 8) % 2 ^ contentDepth L
    · rw [if_pos hg]
      exact (Node.leaf_congr _ c _ _ hg).symm
    · rw [if_neg hg, if_neg hg]
  have hsp := Node.sparse_rebind _ _ _ true f2
    (c.leaf (2 ^ (contentDepth L + 1) + n >>> 8) (contentDepth L))
    (Node.sparse_rebind _ c _ true f _ hs hf) hf2
  refine ⟨hsp, ?_, ?_, hleaf, ?_⟩
  · intro i hi
    obtain ⟨r, hr⟩ := hcov i hi
    by_cases hk : i >>> 8 = n >>> 8
    · rw [hk]
      exact ⟨_, Node.descend_rebind _ _ _ true f2 _ hf2⟩
    · have hne := content_index_ne (contentDepth L) _ _ hk0 (hbound i hi) (fun h => hk h.symm)
      exact ⟨r, Node.descend_rebind_ne _ _ _ _ true f2 _ _ hf2 hne
        (Node.descend_rebind_ne _ c _ _ true f _ _ hf hne hr)⟩
  · intro g j hj hpos
    rw [hleaf]
    exact hz g j hj hpos
  · rintro ⟨r, hr⟩
    rw [Node.rebind_twice _ c _ true true f f2 _ hf hf2, Node.descend_leaf _ c _ r hr]
    exact Node.rebind_same _ c _ true f _ hf hr

theorem contentChunk_listView (L : Nat) (c : Node) (n k : Nat) :
    (listView L c n).contentChunk k
      = if k < 2 ^ contentDepth L then c.leaf k (contentDepth L) else Root.zero := rfl

/-- C17, as amended: on a list reached from the default of a limit `L` with
`L + 255 < 2^64`, created without a commit hook, with `Length() = n < L`,
`Append(b)` then `Pop()` both succeed and leave a list with the length `n` and
chunk for chunk the same content as before the `Append` (its content bits at
the indices `n` and above are clear, and every `Get` returns what it returned
before), hence the same Merkle root under the hash function of the zero
table; the backing tree is the same node for node when `n` is not a multiple
of 256. -/
theorem append_pop_restores [ZeroHash] (L : Nat) (ops : List Op) (n : Nat) (b : Bool)
    (hL : L + 255 < 2 ^ 64) (hlen : ((defaultList L).run ops).Length = .ok n) (hn : n < L) :
    (((defaultList L).run ops).Append b).2 = none ∧
    ((((defaultList L).run ops).Append b).1.Pop).2 = none ∧
    ((((defaultList L).run ops).Append b).1.Pop).1.Length = .ok n ∧
    (∀ k, ((((defaultList L).run ops).Append b).1.Pop).1.contentChunk k
      = ((defaultList L).run ops).contentChunk k) ∧
    (∀ i, n ≤ i →
      (((((defaultList L).run ops).Append b).1.Pop).1.contentChunk (i / 256)).bit (i % 256)
        = false) ∧
    (∀ i, ((((defaultList L).run ops).Append b).1.Pop).1.Get i
      = ((defaultList L).run ops).Get i) ∧
    ((((defaultList L).run ops).Append b).1.Pop).1.BackingNode.MerkleRoot ZeroHash.hash
      = ((defaultList L).run ops).BackingNode.MerkleRoot ZeroHash.hash ∧
    (n % 256 ≠ 0 → ((((defaultList L).run ops).Append b).1.Pop).1.BackingNode
      = ((defaultList L).run ops).BackingNode) := by
  obtain ⟨c, m, h, hm, hs, hcov, hz⟩ := clean_reachable L hL ops
  rw [h] at hlen ⊢
  rw [Length_listView L c m hm (by omega)] at hlen
  have hmn : m = n := by injection hlen
  subst hmn
  obtain ⟨c2, h1, h2, hs2, hcov2, hz2, hleaf, hsame⟩ :=
    Append_Pop_listView L c m b hL hn hs hcov hz
  rw [h2]
  refine ⟨h1, rfl, Length_listView L c2 m hm (by omega), ?_, ?_, ?_, ?_, ?_⟩
  · intro k
    rw [contentChunk_listView, contentChunk_listView, hleaf]
  · intro i hi
    rw [contentChunk_listView]
    by_cases hk : i / 256 < 2 ^ contentDepth L
    · rw [if_pos hk]
      apply hz2 _ _ (Nat.mod_lt _ (by decide))
      rw [Nat.mod_eq_of_lt hk]
      omega
    · rw [if_neg hk, Root.zero_bit]
  · intro i
    by_cases hi : i < m
    · obtain ⟨r, hr⟩ := hcov i hi
      obtain ⟨r2, hr2⟩ := hcov2 i hi
      have e : r2 = r := by
        rw [← Node.descend_leaf _ c2 _ r2 hr2, ← Node.descend_leaf _ c _ r hr, hleaf]
      rw [Get_listView L c2 m i hL hi hm r2 hr2, Get_listView L c m i hL hi hm r hr, e]
    · have hck := CheckIndex_listView L c m i hm (by omega)
      have hck2 := CheckIndex_listView L c2 m i hm (by omega)
      rw [if_pos (by omega)] at hck hck2
      simp only [BitListView.Get, hck, hck2]
  · show ZeroHash.hash (c2.MerkleRoot ZeroHash.hash) _
      = ZeroHash.hash (c.MerkleRoot ZeroHash.hash) _
    rw [Node.MerkleRoot_sparse _ c2 c hs2 hs hleaf]
  · intro h0
    have e : (m - 1) >>> 8 = m >>> 8 := by
      simp only [Nat.shiftRight_eq_div_pow]; omega
    have hr := hcov (m - 1) (by omega)
    rw [e] at hr
    show Node.pair c2 _ = Node.pair c _
    rw [hsame hr]

theorem append_pop_restores_witness :
    ((defaultList 1000).Append true).2 = none ∧
    (((defaultList 1000).Append true).1.Pop).2 = none ∧
    (((defaultList 1000).Append true).1.Pop).1.Length = .ok 0 ∧
    (∀ k, (((defaultList 1000).Append true).1.Pop).1.contentChunk k
      = (defaultList 1000).contentChunk k) ∧
    (((defaultList 1000).Append true).1.Pop).1.BackingNode.MerkleRoot sampleHash
      = (defaultList 1000).BackingNode.MerkleRoot sampleHash :=
  ⟨(append_pop_restores 1000 [] 0 true (by decide) (by decide) (by decide)).1,
   (append_pop_restores 1000 [] 0 true (by decide) (by decide) (by decide)).2.1,
   (append_pop_restores 1000 [] 0 true (by decide) (by decide) (by decide)).2.2.1,
   (append_pop_restores 1000 [] 0 true (by decide) (by decide) (by decide)).2.2.2.1,
   (append_pop_restores 1000 [] 0 true (by decide) (by decide) (by decide)).2.2.2.2.2.2.1⟩

set_option maxRecDepth 100000 in
/-- C17, as stated, fails in three ways.  On the empty default list of limit
512 `Append` expands the placeholder of the content subtree and `Pop` leaves
the pair of zero chunks in its place: the backing tree is not the same, and
its Merkle root under the hash function that returns its first argument is
not the same.  With the limit `2^64 - 255`, after 266 appends and
`Set(265, true)` the length reads 778, below the limit, and neither `Append`
nor the `Pop` that follows succeeds.  And on a default list of limit 16
created with the commit hook of a container, after one `Append` the length
reads 1 and `Append` fails. -/
theorem append_pop_fails :
    ((defaultList 512).Length = .ok 0 ∧
      ((defaultList 512).Append true).2 = none ∧
      (((defaultList 512).Append true).1.Pop).2 = none ∧
      (((defaultList 512).Append true).1.Pop).1.BackingNode ≠ (defaultList 512).BackingNode ∧
      (((defaultList 512).Append true).1.Pop).1.BackingNode.MerkleRoot (fun a _ => a)
        ≠ (defaultList 512).BackingNode.MerkleRoot (fun a _ => a)) ∧
    (((defaultList wrapLimit).run wrapOps).Length = .ok 778 ∧ 778 < wrapLimit ∧
      (((defaultList wrapLimit).run wrapOps).Append false).2 = some .navigation ∧
      ((((defaultList wrapLimit).run wrapOps).Append false).1.Pop).2 = some .navigation) ∧
    ((((BitlistType 16).Default (some (containerHook 1))).run [.append true]).Length = .ok 1 ∧
      ((((BitlistType 16).Default (some (containerHook 1))).run [.append true]).Append true).2
        = some .bottomNotRoot) := by
  rw [run_wrapOps]
  decide

theorem contentDepth_pos (L : Nat) (hL : L + 255 < 2 ^ 64) (h : 256 < L) :
    0 < contentDepth L := by
  have hb : (BitlistType L).BottomNodeLimit = (L + 255) / 256 := by
    simp only [BitListTypeDef.BottomNodeLimit, BitlistType, Nat.shiftRight_eq_div_pow]
    rw [Nat.mod_eq_of_lt (by omega)]
  obtain ⟨h1, _⟩ := CoverDepth_spec ((L + 255) / 256) (by omega)
  unfold contentDepth
  rw [hb]
  by_contra h0
  have e : CoverDepth ((L + 255) / 256) = 0 := by omega
  rw [e] at h1
  omega

/-- An update below the root of a subtree leaves a pair, not a chunk. -/
theorem Node.rebind_ne_chunk [ZeroHash] (d : Nat) (hd : 0 < d) (t : Node) (g : Nat) (e : Bool)
    (f : Link) (h : t.rebind g e d = .ok f) (v : Node) (r : Root) : f v ≠ .chunk r := by
  cases d with
  | zero => omega
  | succ d =>
    obtain ⟨l, r, _, ⟨_, f1, _, rfl⟩ | ⟨_, f1, _, rfl⟩⟩ := Node.rebind_succ d t g e f h
    · intro h2; cases h2
    · intro h2; cases h2

/-- Whatever the zero table: on the empty default list of a limit above 256,
`Append` then `Pop` succeed and leave another backing tree than the default
one, a pair where the placeholder of the content subtree was. -/
theorem append_pop_expands [ZeroHash] (L : Nat) (hL : L + 255 < 2 ^ 64) (h : 256 < L)
    (b : Bool) :
    ((defaultList L).Append b).2 = none ∧
    (((defaultList L).Append b).1.Pop).2 = none ∧
    (((defaultList L).Append b).1.Pop).1.BackingNode ≠ (defaultList L).BackingNode := by
  have hd := contentDepth_pos L hL h
  rw [defaultList_eq]
  have hcov : 0 % 256 ≠ 0 → ∃ r, (Node.chunk (ZeroHashes (contentDepth L))).descend
      (2 ^ (contentDepth L + 1) + 0 >>> 8) (contentDepth L) = .ok (.chunk r) :=
    fun h0 => absurd rfl h0
  obtain ⟨f, hf, happ⟩ := Append_listView L (.chunk (ZeroHashes (contentDepth L))) 0 b hL
    (by omega) hcov
  rw [happ]
  obtain ⟨f2, hf2, hpop⟩ := Pop_listView L _ (0 + 1) hL (by omega) (by omega) _
    (Node.descend_rebind (contentDepth L) _ _ true f _ hf)
  rw [hpop]
  refine ⟨rfl, rfl, ?_⟩
  show Node.pair _ _ ≠ Node.pair _ _
  intro heq
  injection heq with h1 _
  exact Node.rebind_ne_chunk (contentDepth L) hd _ _ true f2 hf2 _ _ h1

end Ztyp
